import Mathlib

/-!
# Verification of `collect_files.py`

A shallow embedding, in Lean 4, of the core of `collect_files.py`:

* the content classifier `looks_binary_bytes`,
* the encoding resolver `try_decode` together with models of the Python
  codecs it consults,
* the ingestion pipeline `process_files_sequential`,
* the discovery engine `discover_files`.

Bytes are modelled as `Nat` in `[0, 256)`, byte strings as `List Nat`,
and decoded text as `List Nat` of Unicode code points.  Filesystem and
OS calls are modelled as total oracles (fields of the model structures);
exceptions raised by the Python code are modelled by explicit fault
fields and `Option` results.
-/

namespace CollectFiles

/-- The allowed-byte predicate of `looks_binary_bytes`: the source builds
`text_chars = bytearray({7,8,9,10,12,13,27} | set(range(0x20, 0x100)))`,
i.e. bell, backspace, tab, newline, form feed, carriage return, escape,
and every byte from `0x20` through `0xFF`. -/
def text_chars (b : Nat) : Bool :=
  [7, 8, 9, 10, 12, 13, 27].contains b || (decide (0x20 ≤ b) && decide (b < 0x100))

/-- Embedding of `looks_binary_bytes` (source lines 84–93).
The Python comparison `ratio > 0.30` is performed in floating point; since
`nontext` and `len(sample)` are at most 1024, the rational value
`nontext/len` is at distance at least `1/10240` from `0.30` whenever their
exact comparison differs from equality, far above double rounding error,
so the float comparison coincides with the exact rational comparison
`10 * nontext > 3 * max 1 len` modelled here. -/
def looks_binary_bytes (data : List Nat) : Bool :=
  if data.isEmpty then false
  else
    let sample := data.take 1024
    if sample.contains 0 then true
    else
      let nontext := (sample.filter (fun b => ! text_chars b)).length
      decide (10 * nontext > 3 * max 1 sample.length)

/-- The allowed-byte set exactly as claim C7 words it: "the printable
ASCII range plus tab, newline, carriage return, form feed, backspace,
and escape" — written from the spec, for comparison with `text_chars`
from the source.  Printable ASCII is `0x20`–`0x7E`; the claimed control
characters are 9, 10, 13, 12, 8 and 27 (no bell, no bytes ≥ `0x7F`). -/
def spec_allowed_byte_C7 (b : Nat) : Bool :=
  [8, 9, 10, 12, 13, 27].contains b || (decide (0x20 ≤ b) && decide (b ≤ 0x7E))

/-- The classifier exactly as claim C7 states it, built on
`spec_allowed_byte_C7` (again written from the spec, for comparison). -/
def spec_looks_binary_C7 (data : List Nat) : Bool :=
  if data.isEmpty then false
  else
    let sample := data.take 1024
    if sample.contains 0 then true
    else
      let nontext := (sample.filter (fun b => ! spec_allowed_byte_C7 b)).length
      decide (10 * nontext > 3 * max 1 sample.length)

/-- C7 counterexample: on the single-byte input `[7]` (a bell character)
the source classifier answers "not binary" — byte 7 is in the source's
allowed set — while the classifier described by the claim answers
"binary", because bell is not among the claim's allowed characters and
so the disallowed fraction is 1 > 0.30. -/
theorem claim_C7_counterexample :
    looks_binary_bytes [7] = false ∧ spec_looks_binary_C7 [7] = true := by
  decide

/-- An independently-phrased rendering of the amended allowed set:
bytes `0x20`–`0xFF` together with bell (7), backspace (8), tab (9),
newline (10), form feed (12), carriage return (13) and escape (27). -/
def allowed_byte_amended_C7 (b : Nat) : Bool :=
  decide (0x20 ≤ b ∧ b ≤ 0xFF) || decide (b = 7 ∨ b = 8 ∨ b = 9 ∨ b = 10 ∨ b = 12 ∨ b = 13 ∨ b = 27)

/-- C7 amended: `looks_binary_bytes` is a pure function of the first
1024 bytes of its input; an empty input is not binary; a null byte in
the first 1024 bytes forces "binary"; otherwise the classification is
"binary" exactly when the fraction of bytes of that prefix outside the
amended allowed set — bytes `0x20`–`0xFF` plus bell, backspace, tab,
newline, form feed, carriage return and escape — exceeds 0.30. -/
theorem claim_C7 :
    (∀ data : List Nat, looks_binary_bytes data = looks_binary_bytes (data.take 1024)) ∧
    (∀ data : List Nat, looks_binary_bytes data = true ↔
      data ≠ [] ∧ (0 ∈ data.take 1024 ∨
        10 * ((data.take 1024).filter (fun b => ! allowed_byte_amended_C7 b)).length >
          3 * max 1 (data.take 1024).length)) := by
  have hset : ∀ b : Nat, text_chars b = allowed_byte_amended_C7 b := by
    intro b
    rcases Nat.lt_or_ge b 32 with h | h
    · interval_cases b <;> rfl
    · have h1 : [7, 8, 9, 10, 12, 13, 27].contains b = false := by
        rw [← Bool.not_eq_true, List.elem_iff]
        intro hmem
        simp only [List.mem_cons, List.not_mem_nil, or_false] at hmem
        omega
      have h2 : decide (b = 7 ∨ b = 8 ∨ b = 9 ∨ b = 10 ∨ b = 12 ∨ b = 13 ∨ b = 27) = false := by
        simp only [decide_eq_false_iff_not]
        omega
      simp only [text_chars, allowed_byte_amended_C7, h1, h2, Bool.false_or, Bool.or_false]
      have h3 : decide (0x20 ≤ b) = true := by simpa using h
      rw [h3, Bool.true_and, decide_eq_decide]
      omega
  have hfilt : ∀ s : List Nat,
      s.filter (fun b => ! text_chars b) = s.filter (fun b => ! allowed_byte_amended_C7 b) := by
    intro s
    apply List.filter_congr
    intro b _
    rw [hset]
  constructor
  · intro data
    cases data with
    | nil => rfl
    | cons a l =>
      have ht : ((a :: l).take 1024).isEmpty = false := rfl
      simp [looks_binary_bytes, ht, List.take_take]
  · intro data
    by_cases hnil : data = []
    · subst hnil; simp [looks_binary_bytes]
    · have hie : data.isEmpty = false := by
        simpa [List.isEmpty_iff] using hnil
      by_cases hz : (data.take 1024).contains 0 = true
      · have hz2 : 0 ∈ data.take 1024 := by simpa [List.contains] using hz
        simp [looks_binary_bytes, hie, hz, hnil, hz2]
      · have hz2 : ¬ (0 ∈ data.take 1024) := by
          intro hmem
          exact hz (by simpa [List.contains] using hmem)
        simp only [looks_binary_bytes, hie, Bool.false_eq_true, if_false, hz, hnil, ne_eq,
          not_false_eq_true, true_and, hz2, false_or]
        rw [hfilt]
        simp

/-! ## Encoding Resolver

`try_decode` defers to Python's codec machinery.  The codecs consulted
are modelled here from their documented strict-mode behaviour: a decode
returns `some` code-point list exactly when Python's `bytes.decode(enc)`
returns a string, and `none` exactly when it raises. -/

/-- Is `b` a UTF-8 continuation byte (`0x80`–`0xBF`)? -/
def isCont (b : Nat) : Bool := decide (0x80 ≤ b ∧ b ≤ 0xBF)

/-- One step of Python's strict `utf-8` decoder (RFC 3629): parse one
scalar value from the front of the byte string, returning it with the
remaining bytes.  Rejects overlong forms, surrogates
(`U+D800`–`U+DFFF`), code points above `U+10FFFF`, stray continuation
bytes and truncated sequences. -/
def utf8DecodeStep : List Nat → Option (Nat × List Nat)
  | [] => none
  | b1 :: rest =>
    if b1 < 0x80 then some (b1, rest)
    else if 0xC2 ≤ b1 ∧ b1 ≤ 0xDF then
      match rest with
      | b2 :: rest2 =>
        if isCont b2 then some ((b1 - 0xC0) * 0x40 + (b2 - 0x80), rest2) else none
      | [] => none
    else if 0xE0 ≤ b1 ∧ b1 ≤ 0xEF then
      match rest with
      | b2 :: b3 :: rest3 =>
        if ((if b1 = 0xE0 then decide (0xA0 ≤ b2 ∧ b2 ≤ 0xBF)
             else if b1 = 0xED then decide (0x80 ≤ b2 ∧ b2 ≤ 0x9F)
             else isCont b2) && isCont b3) then
          some ((b1 - 0xE0) * 0x1000 + (b2 - 0x80) * 0x40 + (b3 - 0x80), rest3)
        else none
      | _ => none
    else if 0xF0 ≤ b1 ∧ b1 ≤ 0xF4 then
      match rest with
      | b2 :: b3 :: b4 :: rest4 =>
        if ((if b1 = 0xF0 then decide (0x90 ≤ b2 ∧ b2 ≤ 0xBF)
             else if b1 = 0xF4 then decide (0x80 ≤ b2 ∧ b2 ≤ 0x8F)
             else isCont b2) && isCont b3 && isCont b4) then
          some ((b1 - 0xF0) * 0x40000 + (b2 - 0x80) * 0x1000 + (b3 - 0x80) * 0x40 + (b4 - 0x80),
            rest4)
        else none
      | _ => none
    else none

/-- A successful decode step consumes at least one byte. -/
theorem utf8DecodeStep_length :
    ∀ (l : List Nat) (c : Nat) (r : List Nat), utf8DecodeStep l = some (c, r) →
      r.length < l.length := by
  intro l c r h
  cases l with
  | nil => simp [utf8DecodeStep] at h
  | cons b1 rest =>
    simp only [utf8DecodeStep] at h
    repeat' split at h
    all_goals simp_all
    all_goals omega

/-- Iterate `utf8DecodeStep`; the fuel argument only serves structural
recursion and is irrelevant once it is at least the list length
(`utf8DecodeLoop_fuel`), since every step consumes at least one byte. -/
def utf8DecodeLoop : Nat → List Nat → Option (List Nat)
  | _, [] => some []
  | 0, _ :: _ => none
  | fuel + 1, b :: rest =>
    match utf8DecodeStep (b :: rest) with
    | some cr => (utf8DecodeLoop fuel cr.2).map (cr.1 :: ·)
    | none => none

/-- Python's strict `utf-8` decoder. -/
def utf8Decode (l : List Nat) : Option (List Nat) := utf8DecodeLoop l.length l

/-- The fuel of `utf8DecodeLoop` is irrelevant once sufficient. -/
theorem utf8DecodeLoop_fuel :
    ∀ (fuel : Nat) (l : List Nat), l.length ≤ fuel →
      utf8DecodeLoop fuel l = utf8DecodeLoop l.length l := by
  intro fuel
  induction fuel using Nat.strong_induction_on with
  | _ fuel ih =>
    intro l hl
    match fuel, l with
    | 0, [] => rfl
    | fuel + 1, [] => rfl
    | 0, b :: rest => simp at hl
    | fuel + 1, b :: rest =>
      have hlen : (b :: rest).length = rest.length + 1 := rfl
      rw [hlen]
      show (match utf8DecodeStep (b :: rest) with
            | some cr => (utf8DecodeLoop fuel cr.2).map (cr.1 :: ·)
            | none => none) =
          (match utf8DecodeStep (b :: rest) with
            | some cr => (utf8DecodeLoop rest.length cr.2).map (cr.1 :: ·)
            | none => none)
      cases hs : utf8DecodeStep (b :: rest) with
      | none => rfl
      | some cr =>
        have hcr := utf8DecodeStep_length _ _ _ hs
        simp only [List.length_cons] at hcr hl
        have h1 : utf8DecodeLoop fuel cr.2 = utf8DecodeLoop cr.2.length cr.2 :=
          ih fuel (by omega) cr.2 (by omega)
        have h2 : utf8DecodeLoop rest.length cr.2 = utf8DecodeLoop cr.2.length cr.2 :=
          ih rest.length (by omega) cr.2 (by omega)
        simp only [h1, h2]

/-- Unfolding `utf8Decode` on a successful first step. -/
theorem utf8Decode_step_some (b : Nat) (rest : List Nat) (c : Nat) (r : List Nat)
    (h : utf8DecodeStep (b :: rest) = some (c, r)) :
    utf8Decode (b :: rest) = (utf8Decode r).map (c :: ·) := by
  have hcr := utf8DecodeStep_length _ _ _ h
  simp only [List.length_cons] at hcr
  show utf8DecodeLoop (b :: rest).length (b :: rest) = _
  have hlen : (b :: rest).length = rest.length + 1 := rfl
  rw [hlen]
  show (match utf8DecodeStep (b :: rest) with
        | some cr => (utf8DecodeLoop rest.length cr.2).map (cr.1 :: ·)
        | none => none) = _
  rw [h]
  show (utf8DecodeLoop rest.length r).map (c :: ·) = (utf8Decode r).map (c :: ·)
  rw [utf8DecodeLoop_fuel rest.length r (by omega)]
  rfl

/-- Unfolding `utf8Decode` on a failing first step. -/
theorem utf8Decode_step_none (b : Nat) (rest : List Nat)
    (h : utf8DecodeStep (b :: rest) = none) :
    utf8Decode (b :: rest) = none := by
  show utf8DecodeLoop (b :: rest).length (b :: rest) = none
  have hlen : (b :: rest).length = rest.length + 1 := rfl
  rw [hlen]
  show (match utf8DecodeStep (b :: rest) with
        | some cr => (utf8DecodeLoop rest.length cr.2).map (cr.1 :: ·)
        | none => none) = none
  rw [h]

/-- Python's `str.encode('utf-8')` on one code point (the pipeline calls
it only on scalar values produced by a strict decoder, never on
surrogates, where CPython would raise). -/
def utf8EncodeChar (c : Nat) : List Nat :=
  if c < 0x80 then [c]
  else if c < 0x800 then [0xC0 + c / 0x40, 0x80 + c % 0x40]
  else if c < 0x10000 then
    [0xE0 + c / 0x1000, 0x80 + (c / 0x40) % 0x40, 0x80 + c % 0x40]
  else
    [0xF0 + c / 0x40000, 0x80 + (c / 0x1000) % 0x40, 0x80 + (c / 0x40) % 0x40, 0x80 + c % 0x40]

/-- Python's `str.encode('utf-8')` on a decoded text. -/
def utf8Encode (text : List Nat) : List Nat := (text.map utf8EncodeChar).flatten

/-- Unicode scalar values: code points below `0x110000` that are not
surrogates — exactly the code points a Python `str` of a strict decoder
can contain. -/
def isScalar (c : Nat) : Bool := decide (c < 0x110000 ∧ ¬ (0xD800 ≤ c ∧ c < 0xE000))

/-- The UTF-8 decoder parses back exactly the scalar the encoder
emitted, leaving the remaining bytes untouched. -/
theorem utf8DecodeStep_encodeChar (c : Nat) (h : isScalar c = true) (bs : List Nat) :
    utf8DecodeStep (utf8EncodeChar c ++ bs) = some (c, bs) := by
  simp only [isScalar, decide_eq_true_eq] at h
  by_cases h1 : c < 0x80
  · have henc : utf8EncodeChar c = [c] := by simp [utf8EncodeChar, h1]
    rw [henc]
    simp [utf8DecodeStep, h1]
  · by_cases h2 : c < 0x800
    · have henc : utf8EncodeChar c = [0xC0 + c / 0x40, 0x80 + c % 0x40] := by
        simp [utf8EncodeChar, h1, h2]
      rw [henc]
      have e1 : ¬ (0xC0 + c / 0x40 < 0x80) := by omega
      have e2 : 0xC2 ≤ 0xC0 + c / 0x40 ∧ 0xC0 + c / 0x40 ≤ 0xDF := by omega
      have e3 : isCont (0x80 + c % 0x40) = true := by simp [isCont]; omega
      simp [utf8DecodeStep, e1, e2, e3]
      omega
    · by_cases h3 : c < 0x10000
      · have henc : utf8EncodeChar c =
            [0xE0 + c / 0x1000, 0x80 + (c / 0x40) % 0x40, 0x80 + c % 0x40] := by
          simp [utf8EncodeChar, h1, h2, h3]
        have e1 : ¬ (0xE0 + c / 0x1000 < 0x80) := by omega
        have e2 : ¬ (0xC2 ≤ 0xE0 + c / 0x1000 ∧ 0xE0 + c / 0x1000 ≤ 0xDF) := by omega
        have e3 : 0xE0 ≤ 0xE0 + c / 0x1000 ∧ 0xE0 + c / 0x1000 ≤ 0xEF := by omega
        have e6 : isCont (0x80 + c % 0x40) = true := by simp [isCont]; omega
        rw [henc]
        by_cases hA : c < 0x1000
        · have hb1 : 0xE0 + c / 0x1000 = 0xE0 := by omega
          have hg : 0xA0 ≤ 0x80 + (c / 0x40) % 0x40 ∧ 0x80 + (c / 0x40) % 0x40 ≤ 0xBF := by
            omega
          rw [hb1]
          simp [utf8DecodeStep, e6, hg]
          omega
        · by_cases hD : 0xD000 ≤ c ∧ c < 0xE000
          · have hc2 : c < 0xD800 := by omega
            have hb1 : 0xE0 + c / 0x1000 = 0xED := by omega
            have hg : 0x80 ≤ 0x80 + (c / 0x40) % 0x40 ∧ 0x80 + (c / 0x40) % 0x40 ≤ 0x9F := by
              omega
            rw [hb1]
            simp [utf8DecodeStep, e6, hg]
            omega
          · have hne1 : ¬ (0xE0 + c / 0x1000 = 0xE0) := by omega
            have hne2 : ¬ (0xE0 + c / 0x1000 = 0xED) := by omega
            have e5 : isCont (0x80 + (c / 0x40) % 0x40) = true := by simp [isCont]; omega
            simp [utf8DecodeStep, e1, e2, e3, hne1, hne2, e5, e6]
            omega
      · have henc : utf8EncodeChar c =
            [0xF0 + c / 0x40000, 0x80 + (c / 0x1000) % 0x40, 0x80 + (c / 0x40) % 0x40,
              0x80 + c % 0x40] := by
          simp [utf8EncodeChar, h1, h2, h3]
        have e1 : ¬ (0xF0 + c / 0x40000 < 0x80) := by omega
        have e2 : ¬ (0xC2 ≤ 0xF0 + c / 0x40000 ∧ 0xF0 + c / 0x40000 ≤ 0xDF) := by omega
        have e3 : ¬ (0xE0 ≤ 0xF0 + c / 0x40000 ∧ 0xF0 + c / 0x40000 ≤ 0xEF) := by
          have := h.1
          omega
        have e4 : 0xF0 ≤ 0xF0 + c / 0x40000 ∧ 0xF0 + c / 0x40000 ≤ 0xF4 := by
          have := h.1
          omega
        have e5 : isCont (0x80 + (c / 0x40) % 0x40) = true := by simp [isCont]; omega
        have e6 : isCont (0x80 + c % 0x40) = true := by simp [isCont]; omega
        rw [henc]
        by_cases hA : c < 0x40000
        · have hb1 : 0xF0 + c / 0x40000 = 0xF0 := by omega
          have hg : 0x90 ≤ 0x80 + (c / 0x1000) % 0x40 ∧ 0x80 + (c / 0x1000) % 0x40 ≤ 0xBF := by
            omega
          rw [hb1]
          simp [utf8DecodeStep, e5, e6, hg]
          omega
        · by_cases hB : 0x100000 ≤ c
          · have hb1 : 0xF0 + c / 0x40000 = 0xF4 := by
              have := h.1
              omega
            have hg : 0x80 ≤ 0x80 + (c / 0x1000) % 0x40 ∧ 0x80 + (c / 0x1000) % 0x40 ≤ 0x8F := by
              have := h.1
              omega
            rw [hb1]
            simp [utf8DecodeStep, e5, e6, hg]
            omega
          · have hne1 : ¬ (0xF0 + c / 0x40000 = 0xF0) := by omega
            have hne2 : ¬ (0xF0 + c / 0x40000 = 0xF4) := by omega
            have e7 : isCont (0x80 + (c / 0x1000) % 0x40) = true := by simp [isCont]; omega
            simp [utf8DecodeStep, e1, e2, e3, e4, hne1, hne2, e5, e6, e7]
            omega

/-- Decoding an encoded scalar prepends it to the decode of the rest. -/
theorem utf8Decode_encodeChar (c : Nat) (h : isScalar c = true) (bs : List Nat) :
    utf8Decode (utf8EncodeChar c ++ bs) = (utf8Decode bs).map (c :: ·) := by
  have hstep := utf8DecodeStep_encodeChar c h bs
  obtain ⟨hd, tl, hht⟩ : ∃ hd tl, utf8EncodeChar c = hd :: tl := by
    unfold utf8EncodeChar
    split_ifs <;> exact ⟨_, _, rfl⟩
  rw [hht] at hstep ⊢
  rw [List.cons_append] at hstep ⊢
  exact utf8Decode_step_some _ _ _ _ hstep

/-- UTF-8 round trip: decoding the encoding of a scalar text gives the
text back — so for byte strings that are valid UTF-8, the first entry
of `COMMON_ENCODINGS` decodes them losslessly. -/
theorem utf8Decode_encode :
    ∀ (text : List Nat), (∀ c ∈ text, isScalar c = true) →
      utf8Decode (utf8Encode text) = some text := by
  intro text
  induction text with
  | nil => intro _; simp [utf8Encode]; rfl
  | cons c rest ih =>
    intro h
    have he : utf8Encode (c :: rest) = utf8EncodeChar c ++ utf8Encode rest := by
      simp [utf8Encode]
    rw [he, utf8Decode_encodeChar c (h c (by simp)), ih (fun x hx => h x (by simp [hx]))]
    rfl

/-- Python's `utf-8-sig` decoder: strip one leading `EF BB BF` byte-order
mark if present, then decode as strict UTF-8. -/
def utf8SigDecode (data : List Nat) : Option (List Nat) :=
  if data.take 3 = [0xEF, 0xBB, 0xBF] then utf8Decode (data.drop 3) else utf8Decode data

/-- Group a byte string into 16-bit code units via `toUnit`; an odd
trailing byte is a "truncated data" error, as in Python. -/
def utf16Units (toUnit : Nat → Nat → Nat) : List Nat → Option (List Nat)
  | [] => some []
  | [_] => none
  | a :: b :: rest => (utf16Units toUnit rest).map (toUnit a b :: ·)

/-- Combine UTF-16 code units into code points: a high surrogate must be
followed by a low surrogate; unpaired surrogates are errors, as in
Python's strict decoder. -/
def utf16Combine : List Nat → Option (List Nat)
  | [] => some []
  | u :: rest =>
    if u < 0xD800 ∨ 0xE000 ≤ u then (utf16Combine rest).map (u :: ·)
    else if u ≤ 0xDBFF then
      match rest with
      | u2 :: rest2 =>
        if 0xDC00 ≤ u2 ∧ u2 ≤ 0xDFFF then
          (utf16Combine rest2).map ((0x10000 + (u - 0xD800) * 0x400 + (u2 - 0xDC00)) :: ·)
        else none
      | [] => none
    else none

/-- Python's strict `utf-16-le` decoder. -/
def utf16leDecode (data : List Nat) : Option (List Nat) :=
  (utf16Units (fun lo hi => lo + 0x100 * hi) data).bind utf16Combine

/-- Python's strict `utf-16-be` decoder. -/
def utf16beDecode (data : List Nat) : Option (List Nat) :=
  (utf16Units (fun hi lo => lo + 0x100 * hi) data).bind utf16Combine

/-- Python's strict `utf-16` decoder: honour a leading byte-order mark;
without one, CPython assumes the platform's native byte order, modelled
here as little-endian (the order on the platforms the tool targets). -/
def utf16Decode (data : List Nat) : Option (List Nat) :=
  if data.take 2 = [0xFF, 0xFE] then utf16leDecode (data.drop 2)
  else if data.take 2 = [0xFE, 0xFF] then utf16beDecode (data.drop 2)
  else utf16leDecode data

/-- Python's `latin-1` decoder: total, each byte maps to the code point
of the same value. -/
def latin1Decode (data : List Nat) : Option (List Nat) := some data

/-- Python's `cp1252` decoder on one byte: bytes `0x80`–`0x9F` map
through the Windows-1252 table, in which `0x81`, `0x8D`, `0x8F`, `0x90`
and `0x9D` are undefined and raise in strict mode. -/
def cp1252Byte (b : Nat) : Option Nat :=
  if b < 0x80 ∨ 0xA0 ≤ b then some b
  else if b = 0x80 then some 0x20AC
  else if b = 0x82 then some 0x201A
  else if b = 0x83 then some 0x0192
  else if b = 0x84 then some 0x201E
  else if b = 0x85 then some 0x2026
  else if b = 0x86 then some 0x2020
  else if b = 0x87 then some 0x2021
  else if b = 0x88 then some 0x02C6
  else if b = 0x89 then some 0x2030
  else if b = 0x8A then some 0x0160
  else if b = 0x8B then some 0x2039
  else if b = 0x8C then some 0x0152
  else if b = 0x8E then some 0x017D
  else if b = 0x91 then some 0x2018
  else if b = 0x92 then some 0x2019
  else if b = 0x93 then some 0x201C
  else if b = 0x94 then some 0x201D
  else if b = 0x95 then some 0x2022
  else if b = 0x96 then some 0x2013
  else if b = 0x97 then some 0x2014
  else if b = 0x98 then some 0x02DC
  else if b = 0x99 then some 0x2122
  else if b = 0x9A then some 0x0161
  else if b = 0x9B then some 0x203A
  else if b = 0x9C then some 0x0153
  else if b = 0x9E then some 0x017E
  else if b = 0x9F then some 0x0178
  else none

/-- Python's strict `cp1252` decoder. -/
def cp1252Decode (data : List Nat) : Option (List Nat) := data.mapM cp1252Byte

/-- Python's `data.decode('utf-8', errors='replace')`, modelled with one
`U+FFFD` per rejected byte.  (CPython's handler replaces each maximal
invalid subpart, which can consume a truncated multi-byte prefix as a
single unit; claim C9 proves this branch of `try_decode` unreachable,
so the difference cannot influence any theorem.) -/
def utf8DecodeReplace : List Nat → List Nat
  | [] => []
  | b1 :: rest =>
    if b1 < 0x80 then b1 :: utf8DecodeReplace rest
    else if 0xC2 ≤ b1 ∧ b1 ≤ 0xDF then
      match rest with
      | b2 :: rest2 =>
        if isCont b2 then ((b1 - 0xC0) * 0x40 + (b2 - 0x80)) :: utf8DecodeReplace rest2
        else 0xFFFD :: utf8DecodeReplace (b2 :: rest2)
      | [] => [0xFFFD]
    else if 0xE0 ≤ b1 ∧ b1 ≤ 0xEF then
      match rest with
      | b2 :: b3 :: rest3 =>
        if ((if b1 = 0xE0 then decide (0xA0 ≤ b2 ∧ b2 ≤ 0xBF)
             else if b1 = 0xED then decide (0x80 ≤ b2 ∧ b2 ≤ 0x9F)
             else isCont b2) && isCont b3) then
          ((b1 - 0xE0) * 0x1000 + (b2 - 0x80) * 0x40 + (b3 - 0x80)) :: utf8DecodeReplace rest3
        else 0xFFFD :: utf8DecodeReplace (b2 :: b3 :: rest3)
      | short => 0xFFFD :: utf8DecodeReplace short
    else if 0xF0 ≤ b1 ∧ b1 ≤ 0xF4 then
      match rest with
      | b2 :: b3 :: b4 :: rest4 =>
        if ((if b1 = 0xF0 then decide (0x90 ≤ b2 ∧ b2 ≤ 0xBF)
             else if b1 = 0xF4 then decide (0x80 ≤ b2 ∧ b2 ≤ 0x8F)
             else isCont b2) && isCont b3 && isCont b4) then
          ((b1 - 0xF0) * 0x40000 + (b2 - 0x80) * 0x1000 + (b3 - 0x80) * 0x40 + (b4 - 0x80)) ::
            utf8DecodeReplace rest4
        else 0xFFFD :: utf8DecodeReplace (b2 :: b3 :: b4 :: rest4)
      | short => 0xFFFD :: utf8DecodeReplace short
    else 0xFFFD :: utf8DecodeReplace rest
termination_by l => l.length
decreasing_by all_goals (simp only [List.length_cons]; omega)

/-- The fixed priority list of encodings (source line 95). -/
def COMMON_ENCODINGS : List String :=
  ["utf-8", "utf-8-sig", "utf-16", "utf-16-le", "utf-16-be", "latin-1", "cp1252"]

/-- `data.decode(enc)` for the encoding names `try_decode` uses. -/
def pythonDecode (enc : String) (data : List Nat) : Option (List Nat) :=
  if enc = "utf-8" then utf8Decode data
  else if enc = "utf-8-sig" then utf8SigDecode data
  else if enc = "utf-16" then utf16Decode data
  else if enc = "utf-16-le" then utf16leDecode data
  else if enc = "utf-16-be" then utf16beDecode data
  else if enc = "latin-1" then latin1Decode data
  else if enc = "cp1252" then cp1252Decode data
  else none

/-- The `for enc in COMMON_ENCODINGS` loop of `try_decode`: return the
first encoding that decodes without error. -/
def tryEncodings (data : List Nat) : List String → Option (List Nat × String)
  | [] => none
  | enc :: rest =>
    match pythonDecode enc data with
    | some txt => some (txt, enc)
    | none => tryEncodings data rest

/-- Embedding of `try_decode` (source lines 97–106).  The source has a
second fallback, `data.decode('latin-1', errors='replace')` labelled
`"latin1-replace"`, guarding against the first fallback raising; since
decoding with replacement never raises, that branch cannot run in
Python and the model's first fallback is total. -/
def try_decode (data : List Nat) : List Nat × String :=
  match tryEncodings data COMMON_ENCODINGS with
  | some r => r
  | none => (utf8DecodeReplace data, "utf-8-replace")

/-- If some encoding of the candidate list decodes `data`, the loop of
`try_decode` succeeds and returns a label from the list. -/
theorem tryEncodings_some (data : List Nat) :
    ∀ (l : List String) (enc : String), enc ∈ l → (pythonDecode enc data).isSome →
      ∃ txt e, tryEncodings data l = some (txt, e) ∧ e ∈ l := by
  intro l
  induction l with
  | nil => intro enc h _; cases h
  | cons e0 rest ih =>
    intro enc hmem hdec
    cases h0 : pythonDecode e0 data with
    | some txt =>
      exact ⟨txt, e0, by simp [tryEncodings, h0], List.mem_cons_self _ _⟩
    | none =>
      rcases List.mem_cons.mp hmem with he | he
      · subst he
        rw [h0] at hdec
        simp at hdec
      · rcases ih enc he hdec with ⟨txt, e, hre, hme⟩
        exact ⟨txt, e, by simp [tryEncodings, h0, hre], List.mem_cons_of_mem _ hme⟩

/-- C9: `try_decode` is total (it is a Lean function); because
`latin-1` decodes every byte string and appears in `COMMON_ENCODINGS`,
the encoding loop always succeeds, the lossy-replacement fallbacks after
the loop are unreachable, and the returned label is one of the seven
entries of `COMMON_ENCODINGS` — never `"utf-8-replace"` or
`"latin1-replace"`. -/
theorem claim_C9 :
    ∀ data : List Nat, ∃ txt enc,
      tryEncodings data COMMON_ENCODINGS = some (txt, enc) ∧
      try_decode data = (txt, enc) ∧ enc ∈ COMMON_ENCODINGS ∧
      enc ≠ "utf-8-replace" ∧ enc ≠ "latin1-replace" := by
  intro data
  obtain ⟨txt, e, hres, hmem⟩ :=
    tryEncodings_some data COMMON_ENCODINGS "latin-1"
      (by simp [COMMON_ENCODINGS])
      (by simp [pythonDecode, latin1Decode])
  refine ⟨txt, e, hres, by simp [try_decode, hres], hmem, ?_⟩
  have h := fun e2 hm => (by decide : ∀ e2 ∈ COMMON_ENCODINGS,
    e2 ≠ "utf-8-replace" ∧ e2 ≠ "latin1-replace") e2 hm
  exact h e hmem

/-! ## Ingestion Pipeline

Embedding of `process_files_sequential` (source lines 309–369).  The
output sink `out_fh` is modelled as the in-memory byte list the run
appends to (sink writes themselves do not fail in this model); the OS
calls made per file — `path.stat()`, the first `open`/`read(8192)`, and
the second `open`/`read(65536)` loop — are modelled by oracle fields of
`PFile`, with fault fields for the exceptions the `try/except` blocks
of the source catch.  Progress-UI calls (`ui.advance`) and verbose
logging affect no modelled state and are omitted. -/

/-- The configuration fields of `args` that `process_files_sequential`
reads.  `max_size_bytes` is the precomputed
`int(args.max_size * 1024 * 1024) if args.max_size else None`. -/
structure Args where
  max_size_bytes : Option Nat
  encoding_report : Bool

/-- One file of `file_list` together with the outcomes of the OS calls
made on it.  `path` is the byte string `str(path).encode('utf-8')`
(identical to `path.as_posix()` on the POSIX paths modelled);
`bytes` is the file content; `statSize` is `some st.st_size`, or `none`
when `path.stat()` raises; `sampleFails` says the first
`open`/`read(8192)` raises; `bodyFailAfter = some n` says an exception
is raised inside the second `with open` block after `n` successful sink
writes of that block (`n = 0`: at the re-open itself). -/
structure PFile where
  path : List Nat
  bytes : List Nat
  statSize : Option Nat
  sampleFails : Bool
  bodyFailAfter : Option Nat
deriving DecidableEq

/-- How the per-file iteration ends: each `continue`/`except` path of
the source loop body, or successful processing with the final
`encoding_used` label. -/
inductive Outcome where
  | skippedLarge
  | errorSample
  | skippedBinary
  | errorBody
  | processed (encodingUsed : String)
deriving DecidableEq

/-- The `while True: chunk = r.read(65536)` loop of the source: the
file content split into 64 KiB chunks (an empty read breaks the loop).
Note the loop reads from a fresh `open(path, "rb")`, so it starts at
offset 0. -/
def readChunksLoop : Nat → List Nat → List (List Nat)
  | _, [] => []
  | 0, _ :: _ => []
  | fuel + 1, b :: rest => (b :: rest).take 65536 :: readChunksLoop fuel ((b :: rest).drop 65536)

/-- The chunk list of a file (see `readChunksLoop`); the fuel `l.length`
is always sufficient because every chunk consumes at least one byte. -/
def readChunks (l : List Nat) : List (List Nat) := readChunksLoop l.length l

/-- The sink writes performed inside the second `with open` block
(source lines 348–359): the decoded sample (if non-empty), then every
chunk of the re-read file, each run through `try_decode` and re-encoded
to UTF-8. -/
def bodyWrites (bytes : List Nat) : List (List Nat) :=
  (if bytes.take 8192 = [] then [] else [utf8Encode (try_decode (bytes.take 8192)).1]) ++
    (readChunks bytes).map (fun c => utf8Encode (try_decode c).1)

/-- The final value of `encoding_used` after the body completes: the
label of the last chunk, else of the sample, else `"unknown"`. -/
def bodyEncodingUsed (bytes : List Nat) : String :=
  match (readChunks bytes).getLast? with
  | some c => (try_decode c).2
  | none => if bytes.take 8192 = [] then "unknown" else (try_decode (bytes.take 8192)).2

/-- The size check of source lines 315–325:
`max_size_bytes is not None and fsize >= 0 and fsize > max_size_bytes`,
where `fsize` is `-1` when `path.stat()` raised. -/
def sizeSkipCheck (args : Args) (f : PFile) : Bool :=
  let fsize : Int := match f.statSize with | some n => (n : Int) | none => -1
  match args.max_size_bytes with
  | some m => decide (0 ≤ fsize) && decide (fsize > (m : Int))
  | none => false

/-- The framing header (source line 344):
`b"\n\n----\n" + str(path).encode("utf-8", errors="replace") + b"\n"`. -/
def header (f : PFile) : List Nat :=
  [10, 10, 45, 45, 45, 45, 10] ++ f.path ++ [10]

/-- The body of the `for path in file_list` loop for one file: the
bytes appended to the sink and the outcome.  The `continue` paths and
the outer `except` of the source map onto the `Outcome` cases; on a
body exception the header and the writes already performed remain in
the sink. -/
def processOne (args : Args) (f : PFile) : List Nat × Outcome :=
  if sizeSkipCheck args f then ([], .skippedLarge)
  else if f.sampleFails then ([], .errorSample)
  else if looks_binary_bytes (f.bytes.take 8192) then ([], .skippedBinary)
  else
    let ws := bodyWrites f.bytes
    match f.bodyFailAfter with
    | some n =>
      if n ≤ ws.length then (header f ++ (ws.take n).flatten, .errorBody)
      else (header f ++ ws.flatten, .processed (bodyEncodingUsed f.bytes))
    | none => (header f ++ ws.flatten, .processed (bodyEncodingUsed f.bytes))

/-- The `Summary` record of the source (lines 238–245);
`encoding_examples` is Python's insertion-ordered dict as an
association list. -/
structure Summary where
  total_files : Nat := 0
  processed : Nat := 0
  skipped_binary : Nat := 0
  skipped_large : Nat := 0
  errors : Nat := 0
  encoding_examples : List (List Nat × String) := []
deriving DecidableEq

/-- Python dict assignment `d[k] = v`: update in place if the key
exists, else append. -/
def dictSet (d : List (List Nat × String)) (k : List Nat) (v : String) :
    List (List Nat × String) :=
  if d.any (fun kv => kv.1 = k) then d.map (fun kv => if kv.1 = k then (k, v) else kv)
  else d ++ [(k, v)]

/-- The summary updates the source performs for each outcome. -/
def applyOutcome (args : Args) (f : PFile) (oc : Outcome) (s : Summary) : Summary :=
  match oc with
  | .skippedLarge => { s with skipped_large := s.skipped_large + 1 }
  | .errorSample => { s with errors := s.errors + 1 }
  | .skippedBinary => { s with skipped_binary := s.skipped_binary + 1 }
  | .errorBody => { s with errors := s.errors + 1 }
  | .processed enc =>
    let s2 := if args.encoding_report then
        { s with encoding_examples := dictSet s.encoding_examples f.path enc }
      else s
    { s2 with processed := s2.processed + 1 }

/-- The main `for path in file_list` loop, threading the sink and the
summary. -/
def processLoop (args : Args) : List PFile → Summary → List Nat × Summary
  | [], s => ([], s)
  | f :: rest, s =>
    let r := processOne args f
    let rr := processLoop args rest (applyOutcome args f r.2 s)
    (r.1 ++ rr.1, rr.2)

/-- Embedding of `process_files_sequential`: the first loop counts
`total_files`, the second processes each file in order. -/
def process_files_sequential (args : Args) (files : List PFile) (s : Summary) :
    List Nat × Summary :=
  processLoop args files { s with total_files := s.total_files + files.length }

/-- Outcomes that increment `summary.errors`. -/
def isErrorOutcome : Outcome → Bool
  | .errorSample => true
  | .errorBody => true
  | _ => false

/-- Outcomes that increment `summary.processed`. -/
def isProcessedOutcome : Outcome → Bool
  | .processed _ => true
  | _ => false

/-- The sink content of a run is the concatenation of each file's own
contribution, independent of the summary state. -/
theorem processLoop_out (args : Args) :
    ∀ (files : List PFile) (s : Summary),
      (processLoop args files s).1 = (files.map (fun f => (processOne args f).1)).flatten := by
  intro files
  induction files with
  | nil => intro s; rfl
  | cons f rest ih => intro s; simp [processLoop, ih]

/-- `applyOutcome` adds one to `errors` exactly on error outcomes. -/
theorem applyOutcome_errors (args : Args) (f : PFile) (oc : Outcome) (s : Summary) :
    (applyOutcome args f oc s).errors = s.errors + (if isErrorOutcome oc then 1 else 0) := by
  cases oc <;> simp [applyOutcome, isErrorOutcome]
  split <;> simp

/-- `applyOutcome` adds one to `processed` exactly on processed
outcomes. -/
theorem applyOutcome_processed (args : Args) (f : PFile) (oc : Outcome) (s : Summary) :
    (applyOutcome args f oc s).processed =
      s.processed + (if isProcessedOutcome oc then 1 else 0) := by
  cases oc <;> simp [applyOutcome, isProcessedOutcome]
  split <;> simp

/-- `applyOutcome` never touches `total_files`. -/
theorem applyOutcome_total (args : Args) (f : PFile) (oc : Outcome) (s : Summary) :
    (applyOutcome args f oc s).total_files = s.total_files := by
  cases oc <;> simp [applyOutcome]
  split <;> simp

/-- The error counter after a run counts exactly the files whose
processing ended in an error outcome. -/
theorem processLoop_errors (args : Args) :
    ∀ (files : List PFile) (s : Summary),
      (processLoop args files s).2.errors =
        s.errors + files.countP (fun f => isErrorOutcome (processOne args f).2) := by
  intro files
  induction files with
  | nil => intro s; simp [processLoop]
  | cons f rest ih =>
    intro s
    simp only [processLoop, ih, applyOutcome_errors, List.countP_cons]
    split <;> omega

/-- The processed counter after a run counts exactly the files whose
processing completed. -/
theorem processLoop_processed (args : Args) :
    ∀ (files : List PFile) (s : Summary),
      (processLoop args files s).2.processed =
        s.processed + files.countP (fun f => isProcessedOutcome (processOne args f).2) := by
  intro files
  induction files with
  | nil => intro s; simp [processLoop]
  | cons f rest ih =>
    intro s
    simp only [processLoop, ih, applyOutcome_processed, List.countP_cons]
    split <;> omega

/-- The per-file loop never changes `total_files`. -/
theorem processLoop_total (args : Args) :
    ∀ (files : List PFile) (s : Summary),
      (processLoop args files s).2.total_files = s.total_files := by
  intro files
  induction files with
  | nil => intro s; simp [processLoop]
  | cons f rest ih =>
    intro s
    simp only [processLoop, ih, applyOutcome_total]

/-- C8: the run completes on every file list; a failure on one file
(sample-read or body exception) increments `errors` and aborts only
that file: the sink receives every file's own contribution in order,
`total_files` counts all files, and the error/processed counters count
exactly the failing/completing files. -/
theorem claim_C8 :
    ∀ (args : Args) (files : List PFile) (s : Summary),
      (process_files_sequential args files s).1 =
          (files.map (fun f => (processOne args f).1)).flatten ∧
      (process_files_sequential args files s).2.total_files = s.total_files + files.length ∧
      (process_files_sequential args files s).2.errors =
          s.errors + files.countP (fun f => isErrorOutcome (processOne args f).2) ∧
      (process_files_sequential args files s).2.processed =
          s.processed + files.countP (fun f => isProcessedOutcome (processOne args f).2) := by
  intro args files s
  refine ⟨?_, ?_, ?_, ?_⟩
  · simp [process_files_sequential, processLoop_out]
  · simp [process_files_sequential, processLoop_total]
  · simp [process_files_sequential, processLoop_errors]
  · simp [process_files_sequential, processLoop_processed]

/-- C10: bytes already written to the sink are never rolled back.  For
a file that passes the size and binary checks and whose body raises
after `n` writes, exactly the framing header plus the first `n` body
writes remain in the sink, the file is counted as an error (not
processed), and in any run the next file's frame follows immediately
after that partial data. -/
theorem claim_C10 :
    ∀ (args : Args) (s : Summary) (pre post : List PFile) (f : PFile) (n : Nat),
      sizeSkipCheck args f = false →
      f.sampleFails = false →
      looks_binary_bytes (f.bytes.take 8192) = false →
      f.bodyFailAfter = some n →
      n ≤ (bodyWrites f.bytes).length →
      processOne args f =
          (header f ++ ((bodyWrites f.bytes).take n).flatten, Outcome.errorBody) ∧
      isErrorOutcome (processOne args f).2 = true ∧
      isProcessedOutcome (processOne args f).2 = false ∧
      (process_files_sequential args (pre ++ f :: post) s).1 =
        (pre.map (fun x => (processOne args x).1)).flatten ++
          (header f ++ ((bodyWrites f.bytes).take n).flatten) ++
          (post.map (fun x => (processOne args x).1)).flatten := by
  intro args s pre post f n hL hs hb hfail hn
  have hone : processOne args f =
      (header f ++ ((bodyWrites f.bytes).take n).flatten, Outcome.errorBody) := by
    simp [processOne, hL, hs, hb, hfail, hn]
  refine ⟨hone, by simp [hone, isErrorOutcome], by simp [hone, isProcessedOutcome], ?_⟩
  simp [process_files_sequential, processLoop_out, hone]

/-- `readChunksLoop` on an empty byte string is empty, for any fuel. -/
theorem readChunksLoop_nil : ∀ fuel : Nat, readChunksLoop fuel [] = [] := by
  intro fuel
  cases fuel <;> rfl

/-- A non-empty file of at most 64 KiB is read as a single chunk. -/
theorem readChunks_short (l : List Nat) (hne : l ≠ []) (hlen : l.length ≤ 65536) :
    readChunks l = [l] := by
  cases l with
  | nil => exact absurd rfl hne
  | cons b rest =>
    show readChunksLoop (b :: rest).length (b :: rest) = [b :: rest]
    have hlen2 : (b :: rest).length = rest.length + 1 := rfl
    rw [hlen2]
    show (b :: rest).take 65536 :: readChunksLoop rest.length ((b :: rest).drop 65536) =
      [b :: rest]
    have ht : (b :: rest).take 65536 = b :: rest := List.take_of_length_le hlen
    have hd : (b :: rest).drop 65536 = [] := by
      rw [List.drop_eq_nil_iff]
      exact hlen
    rw [ht, hd, readChunksLoop_nil]

/-- The CLI-default configuration: a 200 MB size limit
(`int(200.0 * 1024 * 1024)` bytes) and no encoding report. -/
def argsDefault : Args := { max_size_bytes := some 209715200, encoding_report := false }

/-- A 3-byte ASCII file with content `"abc"` and no I/O faults. -/
def fileABC : PFile :=
  { path := [97], bytes := [97, 98, 99], statSize := some 3,
    sampleFails := false, bodyFailAfter := none }

/-- C1: evaluation of the pipeline at the failing input `fileABC`.  The
source decodes and writes the 8 KiB sample, then opens the file again
and reads it *from offset 0* (there is no seek past the sample), so the
body written for `"abc"` is `"abcabc"` — the first `min(8192, size)`
bytes of every processed file are decoded and written twice, where the
claim (and the spec) say only the remainder is read after the sample. -/
theorem claim_C1_code_bug_eval :
    bodyWrites fileABC.bytes = [[97, 98, 99], [97, 98, 99]] ∧
    processOne argsDefault fileABC =
      (header fileABC ++ ([97, 98, 99] ++ [97, 98, 99]), Outcome.processed "utf-8") := by
  decide

/-- The UTF-16LE encoding of "中" (U+4E2D) as a 2-byte file. -/
def fileZhong : PFile :=
  { path := [122], bytes := [0x2D, 0x4E], statSize := some 2,
    sampleFails := false, bodyFailAfter := none }

/-- C2 counterexample: the file `[0x2D, 0x4E]` is the valid UTF-16LE
encoding of the text `[U+4E2D]`, whose characters are representable in
UTF-16LE, and it passes the binary check; but the pipeline's output
after the framing header is `[0x2D, 0x4E, 0x2D, 0x4E]` (the bytes
decoded as UTF-8 — the first encoding in the priority list that
succeeds — and, through the re-read bug, written twice), not the UTF-8
re-encoding `[0xE4, 0xB8, 0xAD]` of that text. -/
theorem claim_C2_counterexample :
    utf16leDecode fileZhong.bytes = some [0x4E2D] ∧
    isScalar 0x4E2D = true ∧
    looks_binary_bytes fileZhong.bytes = false ∧
    utf8Encode [0x4E2D] = [0xE4, 0xB8, 0xAD] ∧
    processOne argsDefault fileZhong =
      (header fileZhong ++ [0x2D, 0x4E, 0x2D, 0x4E], Outcome.processed "utf-8") ∧
    header fileZhong ++ [0x2D, 0x4E, 0x2D, 0x4E] ≠ header fileZhong ++ [0xE4, 0xB8, 0xAD] := by
  decide

/-- C2 amended: only for files whose bytes are valid UTF-8 does the
resolver recover the original text (UTF-16LE or Latin-1 bytes can be
claimed by an earlier encoding in the priority list), and even then the
output after the framing header is the UTF-8 re-encoding written
*twice* — once from the decoded sample and once from the re-read of the
whole file — for any non-empty file of at most 8 KiB (the sample size)
that passes the binary check. -/
theorem claim_C2 :
    ∀ (args : Args) (f : PFile) (text : List Nat),
      (∀ c ∈ text, isScalar c = true) →
      text ≠ [] →
      f.bytes = utf8Encode text →
      f.bytes.length ≤ 8192 →
      sizeSkipCheck args f = false →
      f.sampleFails = false →
      f.bodyFailAfter = none →
      looks_binary_bytes f.bytes = false →
      processOne args f =
        (header f ++ (utf8Encode text ++ utf8Encode text), Outcome.processed "utf-8") := by
  intro args f text hscalar htne hbytes hlen hL hs hfail hbin
  have hcharlen : ∀ c : Nat, 1 ≤ (utf8EncodeChar c).length := by
    intro c
    unfold utf8EncodeChar
    split_ifs <;> simp
  have hBne : f.bytes ≠ [] := by
    rw [hbytes]
    cases text with
    | nil => exact absurd rfl htne
    | cons c rest =>
      have he : utf8Encode (c :: rest) = utf8EncodeChar c ++ utf8Encode rest := by
        simp [utf8Encode]
      rw [he]
      intro hcon
      have h1 := hcharlen c
      have h2 : (utf8EncodeChar c ++ utf8Encode rest).length = 0 := by rw [hcon]; rfl
      rw [List.length_append] at h2
      omega
  have hsample : f.bytes.take 8192 = f.bytes := List.take_of_length_le hlen
  have hdec : utf8Decode f.bytes = some text := by
    rw [hbytes]
    exact utf8Decode_encode text hscalar
  have htd : try_decode f.bytes = (text, "utf-8") := by
    simp [try_decode, tryEncodings, COMMON_ENCODINGS, pythonDecode, hdec]
  have hchunks : readChunks f.bytes = [f.bytes] := readChunks_short f.bytes hBne (by omega)
  have hws : bodyWrites f.bytes = [utf8Encode text, utf8Encode text] := by
    simp only [bodyWrites, hsample, hBne, hchunks, htd, if_neg, List.map_cons, List.map_nil]
    simp
  have henc : bodyEncodingUsed f.bytes = "utf-8" := by
    simp [bodyEncodingUsed, hchunks, htd]
  have hbin2 : looks_binary_bytes (f.bytes.take 8192) = false := by rw [hsample]; exact hbin
  simp [processOne, hL, hs, hbin2, hfail, hws, henc]

/-- A 2-byte ASCII file `"hi"` used as the concrete witness input. -/
def fileHi : PFile :=
  { path := [119], bytes := [104, 105], statSize := some 2,
    sampleFails := false, bodyFailAfter := none }

/-- Witness for C2 at the concrete text `"hi"`. -/
theorem claim_C2_witness :
    (∀ c ∈ ([104, 105] : List Nat), isScalar c = true) ∧
    ([104, 105] : List Nat) ≠ [] ∧
    fileHi.bytes = utf8Encode [104, 105] ∧
    fileHi.bytes.length ≤ 8192 ∧
    sizeSkipCheck argsDefault fileHi = false ∧
    fileHi.sampleFails = false ∧
    fileHi.bodyFailAfter = none ∧
    looks_binary_bytes fileHi.bytes = false ∧
    processOne argsDefault fileHi =
      (header fileHi ++ (utf8Encode [104, 105] ++ utf8Encode [104, 105]),
        Outcome.processed "utf-8") :=
  ⟨by decide, by decide, by decide, by decide, by decide, by decide, by decide, by decide,
    claim_C2 argsDefault fileHi [104, 105] (by decide) (by decide) (by decide) (by decide)
      (by decide) (by decide) (by decide) (by decide)⟩

/-- The empty starting summary. -/
def summary0 : Summary := {}

/-- A file whose body raises after one successful write (the decoded
sample reached the sink, the re-read then failed). -/
def fileFailMid : PFile :=
  { path := [113], bytes := [104, 106], statSize := some 2,
    sampleFails := false, bodyFailAfter := some 1 }

/-- A healthy ASCII file `"ok"` processed after the failing one. -/
def fileOkG : PFile :=
  { path := [103], bytes := [111, 107], statSize := some 2,
    sampleFails := false, bodyFailAfter := none }

/-- Witness for C10: a run over the failing file followed by a healthy
file, evaluated concretely. -/
theorem claim_C10_witness :
    sizeSkipCheck argsDefault fileFailMid = false ∧
    fileFailMid.sampleFails = false ∧
    looks_binary_bytes (fileFailMid.bytes.take 8192) = false ∧
    fileFailMid.bodyFailAfter = some 1 ∧
    1 ≤ (bodyWrites fileFailMid.bytes).length ∧
    (processOne argsDefault fileFailMid =
        (header fileFailMid ++ ((bodyWrites fileFailMid.bytes).take 1).flatten,
          Outcome.errorBody) ∧
      isErrorOutcome (processOne argsDefault fileFailMid).2 = true ∧
      isProcessedOutcome (processOne argsDefault fileFailMid).2 = false ∧
      (process_files_sequential argsDefault ([] ++ fileFailMid :: [fileOkG]) summary0).1 =
        (([] : List PFile).map (fun x => (processOne argsDefault x).1)).flatten ++
          (header fileFailMid ++ ((bodyWrites fileFailMid.bytes).take 1).flatten) ++
          ([fileOkG].map (fun x => (processOne argsDefault x).1)).flatten) :=
  ⟨by decide, by decide, by decide, by decide, by decide,
    claim_C10 argsDefault summary0 [] [fileOkG] fileFailMid 1 (by decide) (by decide)
      (by decide) (by decide) (by decide)⟩

/-! ## Discovery Engine

Embedding of `discover_files` (source lines 109–220).  Paths are lists
of name components (absolute, as `main` resolves the roots).  The
filesystem is an oracle `fs : List String → Option (List Entry)`
modelling `os.scandir` — `none` when the call raises — so cyclic
symlink structures are simply filesystems defined on the infinitely
many paths a cycle generates.  The per-entry OS calls are oracle
fields of `Entry`. -/

/-- A dedup key (source lines 175–191): `("inode", ino, dev)` when both
stat numbers are obtainable and not both zero, else `("path",
resolved-or-absolute path string)`. -/
inductive Key where
  | inode (ino dev : Nat)
  | path (p : List String)
deriving DecidableEq

/-- One `os.scandir` entry with the results of the OS calls the source
makes on it, as total oracle fields.  `statF`/`statN` model
`entry.stat(follow_symlinks=True/False)` — `none` when the call raises
or when `st_ino`/`st_dev` is absent (`getattr` default `None`);
`resolved` models `p.resolve()` (`none`: resolution raises, the source
falls back to `p.absolute()`, which is the syntactic path here);
`isFileF`/`isFileN` and `isDirF`/`isDirN` model
`entry.is_file`/`entry.is_dir` under each `follow_symlinks` policy.
A symlink entry reports its target's metadata when followed and its
own when not, so links, hard links and link cycles are all captured by
the oracle's choice of values. -/
structure Entry where
  name : String
  statF : Option (Nat × Nat)
  statN : Option (Nat × Nat)
  resolved : Option (List String)
  isFileF : Bool
  isFileN : Bool
  isDirF : Bool
  isDirN : Bool
deriving DecidableEq

/-- `entry.stat(follow_symlinks=follow)`. -/
def entryStat (follow : Bool) (e : Entry) : Option (Nat × Nat) :=
  if follow then e.statF else e.statN

/-- `entry.is_file(follow_symlinks=follow)`. -/
def entryIsFile (follow : Bool) (e : Entry) : Bool :=
  if follow then e.isFileF else e.isFileN

/-- `entry.is_dir(follow_symlinks=follow)`. -/
def entryIsDir (follow : Bool) (e : Entry) : Bool :=
  if follow then e.isDirF else e.isDirN

/-- `name.startswith('.')`, written on the character list so that it
evaluates by kernel reduction. -/
def startsWithDot (s : String) : Bool :=
  match s.data with
  | [] => false
  | c :: _ => c = '.'

/-- `is_hidden` (source lines 63–75), POSIX branch: the path's final
name component starts with a dot.  (The Windows hidden-attribute branch
is platform state outside this model.) -/
def is_hidden (p : List String) : Bool := startsWithDot (p.getLastD "")

/-- The key construction of source lines 165–191 for the child `e` of
directory `dir`. -/
def childKey (follow : Bool) (dir : List String) (e : Entry) : Key :=
  let p := dir ++ [e.name]
  match entryStat follow e with
  | none => Key.path (e.resolved.getD p)
  | some (ino, dev) =>
    if ino = 0 ∧ dev = 0 then Key.path (e.resolved.getD p)
    else Key.inode ino dev

/-- What scanning one directory's entries produces: the yields and the
pushed subdirectories — each path paired, for specification purposes,
with the identity key the source computed for it (the program yields
and pushes only the path) — and the updated `seen_keys`. -/
structure StepOut where
  yields : List (List String × Key)
  pushes : List (List String × Key)
  seen : List Key
deriving DecidableEq

/-- The depth-bound test of source line 215:
`max_depth is None or (depth + 1) <= max_depth`. -/
def depthOK (maxDepth : Option Nat) (depth : Nat) : Bool :=
  match maxDepth with
  | none => true
  | some d => decide (depth + 1 ≤ d)

/-- The `for entry in entries` body (source lines 151–219): hidden
check first, then key computation, seen check, seen insertion, and the
file/dir dispatch with the depth bound.  `seen` is `seen_keys` as a
list consulted only through membership. -/
def processEntries (includeHidden follow : Bool) (maxDepth : Option Nat)
    (dir : List String) (depth : Nat) :
    List Entry → List Key → StepOut
  | [], seen => { yields := [], pushes := [], seen := seen }
  | e :: rest, seen =>
    let p := dir ++ [e.name]
    if ¬includeHidden ∧ is_hidden p then
      processEntries includeHidden follow maxDepth dir depth rest seen
    else
      let key := childKey follow dir e
      if key ∈ seen then
        processEntries includeHidden follow maxDepth dir depth rest seen
      else
        let seen2 := key :: seen
        if entryIsFile follow e then
          let out := processEntries includeHidden follow maxDepth dir depth rest seen2
          { out with yields := (p, key) :: out.yields }
        else if entryIsDir follow e then
          if depthOK maxDepth depth then
            let out := processEntries includeHidden follow maxDepth dir depth rest seen2
            { out with pushes := (p, key) :: out.pushes }
          else
            processEntries includeHidden follow maxDepth dir depth rest seen2
        else
          processEntries includeHidden follow maxDepth dir depth rest seen2

/-- The `while stack` loop (source lines 132–219), with explicit fuel
(C4 proves the bound `|K| + 2` always suffices on a filesystem whose
keys lie in `K`; `none` is returned only on fuel exhaustion).  The
stack is top-first: the source pops from the end of its list and
appends pushes in entry order, which `pushes.reverse ++ rest`
reproduces. -/
def discoverLoop (includeHidden follow : Bool) (maxDepth : Option Nat)
    (fs : List String → Option (List Entry)) :
    Nat → List (List String × Nat) → List Key →
      Option (List (List String × Key) × List Key)
  | _, [], seen => some ([], seen)
  | 0, _ :: _, _ => none
  | fuel + 1, (dir, depth) :: rest, seen =>
    if ¬includeHidden ∧ is_hidden dir then
      discoverLoop includeHidden follow maxDepth fs fuel rest seen
    else
      match fs dir with
      | none => discoverLoop includeHidden follow maxDepth fs fuel rest seen
      | some entries =>
        let out := processEntries includeHidden follow maxDepth dir depth entries seen
        match discoverLoop includeHidden follow maxDepth fs fuel
            ((out.pushes.map (fun pk => (pk.1, depth + 1))).reverse ++ rest) out.seen with
        | some (ys, seenF) => some (out.yields ++ ys, seenF)
        | none => none

/-- A root input with its `root.is_file()` / `root.exists()` oracle
results. -/
structure Root where
  path : List String
  isFile : Bool
  present : Bool
deriving DecidableEq

/-- A yield of `discover_files`: a root file yielded directly (the
source computes no key for it), or a traversal child together with the
key the source recorded. -/
inductive YieldItem where
  | rootFile (p : List String)
  | child (p : List String) (k : Key)
deriving DecidableEq

/-- Embedding of `discover_files` (source lines 109–220): iterate the
roots sharing one `seen_keys` set; a root that is a file is yielded
directly with no hidden or dedup check; a missing root is skipped; a
root directory starts a stack run at depth 0. -/
def discover_files (includeHidden follow : Bool) (maxDepth : Option Nat)
    (fs : List String → Option (List Entry)) (fuel : Nat) :
    List Root → List Key → Option (List YieldItem × List Key)
  | [], seen => some ([], seen)
  | r :: rs, seen =>
    if r.isFile then
      match discover_files includeHidden follow maxDepth fs fuel rs seen with
      | some (ys, seenF) => some (.rootFile r.path :: ys, seenF)
      | none => none
    else if ¬r.present then
      discover_files includeHidden follow maxDepth fs fuel rs seen
    else
      match discoverLoop includeHidden follow maxDepth fs fuel [(r.path, 0)] seen with
      | some (ys, seen2) =>
        match discover_files includeHidden follow maxDepth fs fuel rs seen2 with
        | some (ys2, seenF) => some (ys.map (fun pk => .child pk.1 pk.2) ++ ys2, seenF)
        | none => none
      | none => none

/-- The keys of the traversal-child yields of a run. -/
def childKeys (ys : List YieldItem) : List Key :=
  ys.filterMap (fun item => match item with
    | .child _ k => some k
    | .rootFile _ => none)

/-- A hidden directory entry with valid inode numbers `(5, 1)`. -/
def entryHidden3 : Entry :=
  { name := ".h", statF := some (5, 1), statN := some (5, 1), resolved := none,
    isFileF := false, isFileN := false, isDirF := true, isDirN := true }

/-- A one-directory filesystem whose root `["r"]` contains only the
hidden entry `entryHidden3`. -/
def exFS3 : List String → Option (List Entry) :=
  fun p => if p = ["r"] then some [entryHidden3] else none

/-- The root `["r"]`, an existing directory. -/
def exRoot3 : Root := { path := ["r"], isFile := false, present := true }

/-- C3 counterexample: running discovery with `include_hidden = false`
over a root whose only child is the hidden directory `.h` (identity key
`inode (5, 1)`) ends with an *empty* seen-set: the child's key was
never computed or inserted, contrary to the claim that the key is
recorded before the hidden-filter decision. -/
theorem claim_C3_counterexample :
    discover_files false false none exFS3 3 [exRoot3] [] = some ([], []) ∧
    exFS3 ["r"] = some [entryHidden3] ∧
    is_hidden (["r"] ++ [entryHidden3.name]) = true ∧
    childKey false ["r"] entryHidden3 = Key.inode 5 1 ∧
    ¬ (Key.inode 5 1 ∈ ([] : List Key)) := by
  decide

/-- C3 amended: the hidden-filter decision is applied to each child
*before* its identity key is computed or inserted: with
`include_hidden = false` a hidden child contributes nothing to the scan
— no yield, no push, and no seen-set insertion — so a hidden symlink
into a loop is not marked seen. -/
theorem claim_C3 :
    ∀ (follow : Bool) (maxDepth : Option Nat) (dir : List String) (depth : Nat)
      (e : Entry) (rest : List Entry) (seen : List Key),
      is_hidden (dir ++ [e.name]) = true →
      processEntries false follow maxDepth dir depth (e :: rest) seen =
        processEntries false follow maxDepth dir depth rest seen := by
  intro follow maxDepth dir depth e rest seen h
  simp [processEntries, h]

/-- Witness for C3 at the concrete hidden entry. -/
theorem claim_C3_witness :
    is_hidden (["r"] ++ [entryHidden3.name]) = true ∧
    processEntries false false none ["r"] 0 [entryHidden3] [] =
      processEntries false false none ["r"] 0 [] [] :=
  ⟨by decide, claim_C3 false none ["r"] 0 entryHidden3 [] [] (by decide)⟩

/-- The number of keys of `K` not yet in `seen`: the key component of
the traversal's termination measure. -/
def countUnseen (K seen : List Key) : Nat :=
  (K.filter (fun k => decide (k ∉ seen))).length

/-- Filtering with a stronger predicate keeps at most as many
elements. -/
theorem length_filter_imp {α : Type} (p q : α → Bool)
    (h : ∀ x, p x = true → q x = true) :
    ∀ l : List α, (l.filter p).length ≤ (l.filter q).length := by
  intro l
  induction l with
  | nil => simp
  | cons a t iht =>
    by_cases hp : p a = true
    · simp [List.filter_cons, hp, h a hp]
      omega
    · simp only [List.filter_cons, hp]
      by_cases hq : q a = true <;> simp [hq] <;> omega

/-- Marking a fresh key of `K` as seen strictly decreases the unseen
count. -/
theorem countUnseen_cons (K seen : List Key) (k : Key) (hK : k ∈ K) (hs : k ∉ seen) :
    countUnseen K (k :: seen) + 1 ≤ countUnseen K seen := by
  induction K with
  | nil => cases hK
  | cons a t iht =>
    unfold countUnseen at *
    by_cases hak : a = k
    · subst hak
      have h1 : decide (a ∉ a :: seen) = false := by simp
      have h2 : decide (a ∉ seen) = true := by simpa using hs
      rw [List.filter_cons_of_neg (by simp [h1]), List.filter_cons_of_pos (by simp [h2])]
      have := length_filter_imp (fun x => decide (x ∉ a :: seen)) (fun x => decide (x ∉ seen))
        (by intro x hx; simp at hx ⊢; exact hx.2) t
      simp only [List.length_cons]
      omega
    · have hK2 : k ∈ t := by
        rcases List.mem_cons.mp hK with h | h
        · exact absurd h.symm hak
        · exact h
      have hrec := iht hK2
      by_cases ha : a ∈ seen
      · have h1 : decide (a ∉ k :: seen) = false := by simp [ha]
        have h2 : decide (a ∉ seen) = false := by simp [ha]
        rw [List.filter_cons_of_neg (by simp [ha]), List.filter_cons_of_neg (by simp [ha])]
        omega
      · have h1 : (a ∉ k :: seen) := by
          simp only [List.mem_cons]
          rintro (h | h)
          · exact hak h
          · exact ha h
        rw [List.filter_cons_of_pos (by simpa using h1), List.filter_cons_of_pos (by simpa using ha)]
        simp only [List.length_cons]
        omega

/-- Marking a block of fresh, pairwise-distinct keys of `K` as seen
decreases the unseen count by at least the block's size. -/
theorem countUnseen_append (K : List Key) :
    ∀ (newKeys seen : List Key), newKeys.Nodup → (∀ k ∈ newKeys, k ∉ seen ∧ k ∈ K) →
      countUnseen K (newKeys ++ seen) + newKeys.length ≤ countUnseen K seen := by
  intro newKeys
  induction newKeys with
  | nil => intro seen _ _; simp
  | cons k t iht =>
    intro seen hnd hin
    have hk := hin k (List.mem_cons_self _ _)
    have hknt : k ∉ t := (List.nodup_cons.mp hnd).1
    have h1 : countUnseen K (k :: (t ++ seen)) + 1 ≤ countUnseen K (t ++ seen) := by
      apply countUnseen_cons K (t ++ seen) k hk.2
      simp only [List.mem_append]
      rintro (h | h)
      · exact hknt h
      · exact hk.1 h
    have h2 : countUnseen K (t ++ seen) + t.length ≤ countUnseen K seen :=
      iht seen (List.nodup_cons.mp hnd).2 (fun x hx => hin x (List.mem_cons_of_mem _ hx))
    simp only [List.cons_append, List.length_cons]
    omega

/-- The unseen count never exceeds `|K|`. -/
theorem countUnseen_le (K seen : List Key) : countUnseen K seen ≤ K.length :=
  (List.length_filter_le _ _)

/-- Scanning one directory's entries: the seen-set grows by a
pairwise-distinct block of fresh keys drawn from the entries, and the
yield/push events use pairwise-distinct keys from that block — in
particular a key already seen is never yielded or pushed. -/
theorem processEntries_spec (ihid fol : Bool) (md : Option Nat) (dir : List String)
    (depth : Nat) :
    ∀ (entries : List Entry) (seen : List Key),
      ∃ newKeys : List Key,
        (processEntries ihid fol md dir depth entries seen).seen = newKeys ++ seen ∧
        newKeys.Nodup ∧
        (∀ k ∈ newKeys, k ∉ seen ∧ k ∈ entries.map (childKey fol dir)) ∧
        ((processEntries ihid fol md dir depth entries seen).yields.map Prod.snd ++
            (processEntries ihid fol md dir depth entries seen).pushes.map Prod.snd).Nodup ∧
        (∀ k ∈ (processEntries ihid fol md dir depth entries seen).yields.map Prod.snd ++
            (processEntries ihid fol md dir depth entries seen).pushes.map Prod.snd,
          k ∈ newKeys) := by
  intro entries
  induction entries with
  | nil =>
    intro seen
    exact ⟨[], rfl, List.nodup_nil, by simp, by simp [processEntries], by simp [processEntries]⟩
  | cons e rest ihr =>
    intro seen
    by_cases hh : ¬(ihid = true) ∧ is_hidden (dir ++ [e.name]) = true
    · have heq : processEntries ihid fol md dir depth (e :: rest) seen =
          processEntries ihid fol md dir depth rest seen := by
        simp [processEntries, hh]
      obtain ⟨nk, h1, h2, h3, h4, h5⟩ := ihr seen
      rw [heq]
      refine ⟨nk, h1, h2, ?_, h4, h5⟩
      intro k hk
      refine ⟨(h3 k hk).1, ?_⟩
      simp only [List.map_cons, List.mem_cons]
      exact Or.inr ((h3 k hk).2)
    · by_cases hs : childKey fol dir e ∈ seen
      · have heq : processEntries ihid fol md dir depth (e :: rest) seen =
            processEntries ihid fol md dir depth rest seen := by
          simp [processEntries, hh, hs]
        obtain ⟨nk, h1, h2, h3, h4, h5⟩ := ihr seen
        rw [heq]
        refine ⟨nk, h1, h2, ?_, h4, h5⟩
        intro k hk
        refine ⟨(h3 k hk).1, ?_⟩
        simp only [List.map_cons, List.mem_cons]
        exact Or.inr ((h3 k hk).2)
      · obtain ⟨nk, h1, h2, h3, h4, h5⟩ := ihr (childKey fol dir e :: seen)
        have hknk : childKey fol dir e ∉ nk := by
          intro hmem
          exact ((h3 _ hmem).1) (List.mem_cons_self _ _)
        have hseen2 : ∀ k ∈ nk ++ [childKey fol dir e], k ∉ seen ∧
            k ∈ (e :: rest).map (childKey fol dir) := by
          intro k hk
          rcases List.mem_append.mp hk with h | h
          · refine ⟨fun hc => (h3 k h).1 (List.mem_cons_of_mem _ hc), ?_⟩
            simp only [List.map_cons, List.mem_cons]
            exact Or.inr ((h3 k h).2)
          · rcases List.mem_singleton.mp h with rfl
            exact ⟨hs, by simp⟩
        have hnd2 : (nk ++ [childKey fol dir e]).Nodup := by
          rw [List.nodup_append]
          refine ⟨h2, List.nodup_singleton _, ?_⟩
          intro a ha hb
          rcases List.mem_singleton.mp hb with rfl
          exact hknk ha
        have hseq : nk ++ childKey fol dir e :: seen = (nk ++ [childKey fol dir e]) ++ seen := by
          rw [List.append_assoc]
          rfl
        by_cases hf : entryIsFile fol e = true
        · have heq : processEntries ihid fol md dir depth (e :: rest) seen =
              { processEntries ihid fol md dir depth rest (childKey fol dir e :: seen) with
                yields := (dir ++ [e.name], childKey fol dir e) ::
                  (processEntries ihid fol md dir depth rest
                    (childKey fol dir e :: seen)).yields } := by
            simp only [processEntries]
            rw [if_neg hh, if_neg hs, if_pos hf]
          rw [heq]
          refine ⟨nk ++ [childKey fol dir e], ?_, hnd2, hseen2, ?_, ?_⟩
          · show (processEntries ihid fol md dir depth rest
                (childKey fol dir e :: seen)).seen = _
            rw [h1, hseq]
          · show (((dir ++ [e.name], childKey fol dir e) ::
                (processEntries ihid fol md dir depth rest
                  (childKey fol dir e :: seen)).yields).map Prod.snd ++
              (processEntries ihid fol md dir depth rest
                (childKey fol dir e :: seen)).pushes.map Prod.snd).Nodup
            simp only [List.map_cons, List.cons_append]
            exact List.nodup_cons.mpr ⟨fun hc => hknk (h5 _ hc), h4⟩
          · intro k hk
            simp only [List.map_cons, List.cons_append, List.mem_cons] at hk
            rcases hk with rfl | hk
            · exact List.mem_append_right _ (List.mem_singleton.mpr rfl)
            · exact List.mem_append_left _ (h5 k hk)
        · by_cases hd : entryIsDir fol e = true
          · by_cases hdep : depthOK md depth = true
            · have heq : processEntries ihid fol md dir depth (e :: rest) seen =
                  { processEntries ihid fol md dir depth rest (childKey fol dir e :: seen) with
                    pushes := (dir ++ [e.name], childKey fol dir e) ::
                      (processEntries ihid fol md dir depth rest
                        (childKey fol dir e :: seen)).pushes } := by
                simp only [processEntries]
                rw [if_neg hh, if_neg hs, if_neg hf, if_pos hd, if_pos hdep]
              rw [heq]
              refine ⟨nk ++ [childKey fol dir e], ?_, hnd2, hseen2, ?_, ?_⟩
              · show (processEntries ihid fol md dir depth rest
                    (childKey fol dir e :: seen)).seen = _
                rw [h1, hseq]
              · show ((processEntries ihid fol md dir depth rest
                    (childKey fol dir e :: seen)).yields.map Prod.snd ++
                  ((dir ++ [e.name], childKey fol dir e) ::
                    (processEntries ihid fol md dir depth rest
                      (childKey fol dir e :: seen)).pushes).map Prod.snd).Nodup
                simp only [List.map_cons]
                exact List.nodup_middle.mpr (List.nodup_cons.mpr ⟨fun hc => hknk (h5 _ hc), h4⟩)
              · intro k hk
                simp only [List.map_cons] at hk
                rcases List.mem_append.mp hk with hk2 | hk2
                · exact List.mem_append_left _ (h5 k (List.mem_append_left _ hk2))
                · rcases List.mem_cons.mp hk2 with rfl | hk3
                  · exact List.mem_append_right _ (List.mem_singleton.mpr rfl)
                  · exact List.mem_append_left _ (h5 k (List.mem_append_right _ hk3))
            · have heq : processEntries ihid fol md dir depth (e :: rest) seen =
                  processEntries ihid fol md dir depth rest (childKey fol dir e :: seen) := by
                simp only [processEntries]
                rw [if_neg hh, if_neg hs, if_neg hf, if_pos hd, if_neg hdep]
              rw [heq]
              refine ⟨nk ++ [childKey fol dir e], ?_, hnd2, hseen2, h4,
                fun k hk => List.mem_append_left _ (h5 k hk)⟩
              rw [h1, hseq]
          · have heq : processEntries ihid fol md dir depth (e :: rest) seen =
                processEntries ihid fol md dir depth rest (childKey fol dir e :: seen) := by
              simp only [processEntries]
              rw [if_neg hh, if_neg hs, if_neg hf, if_neg hd]
            rw [heq]
            refine ⟨nk ++ [childKey fol dir e], ?_, hnd2, hseen2, h4,
              fun k hk => List.mem_append_left _ (h5 k hk)⟩
            rw [h1, hseq]

/-- The `while stack` loop terminates whenever the fuel exceeds the
measure `countUnseen K seen + |stack|` (on a filesystem whose child
keys all lie in `K`), and its yields carry pairwise-distinct keys, all
fresh relative to the starting seen-set, which only grows. -/
theorem discoverLoop_spec (ihid fol : Bool) (md : Option Nat)
    (fs : List String → Option (List Entry)) (K : List Key)
    (hK : ∀ dir entries e, fs dir = some entries → e ∈ entries → childKey fol dir e ∈ K) :
    ∀ (fuel : Nat) (stack : List (List String × Nat)) (seen : List Key),
      countUnseen K seen + stack.length < fuel →
      ∃ ys seenF,
        discoverLoop ihid fol md fs fuel stack seen = some (ys, seenF) ∧
        ∃ newKeys : List Key, seenF = newKeys ++ seen ∧ newKeys.Nodup ∧
          (∀ k ∈ newKeys, k ∉ seen) ∧
          (ys.map Prod.snd).Nodup ∧ (∀ k ∈ ys.map Prod.snd, k ∈ newKeys) := by
  intro fuel
  induction fuel using Nat.strong_induction_on with
  | _ fuel ihf =>
    intro stack seen hm
    match fuel, stack with
    | 0, [] =>
      exact ⟨[], seen, rfl, [], rfl, List.nodup_nil, by simp, by simp, by simp⟩
    | fuel + 1, [] =>
      exact ⟨[], seen, rfl, [], rfl, List.nodup_nil, by simp, by simp, by simp⟩
    | 0, fr :: st => simp at hm
    | fuel + 1, (dir, depth) :: rest =>
      simp only [List.length_cons] at hm
      by_cases hh : ¬(ihid = true) ∧ is_hidden dir = true
      · have heq : discoverLoop ihid fol md fs (fuel + 1) ((dir, depth) :: rest) seen =
            discoverLoop ihid fol md fs fuel rest seen := by
          simp only [discoverLoop]
          rw [if_pos hh]
        rw [heq]
        exact ihf fuel (Nat.lt_succ_self _) rest seen (by omega)
      · cases hfs : fs dir with
        | none =>
          have heq : discoverLoop ihid fol md fs (fuel + 1) ((dir, depth) :: rest) seen =
              discoverLoop ihid fol md fs fuel rest seen := by
            simp only [discoverLoop]
            rw [if_neg hh, hfs]
          rw [heq]
          exact ihf fuel (Nat.lt_succ_self _) rest seen (by omega)
        | some entries =>
          obtain ⟨nk1, e1, e2, e3, e4, e5⟩ := processEntries_spec ihid fol md dir depth
            entries seen
          have hnkK : ∀ k ∈ nk1, k ∉ seen ∧ k ∈ K := by
            intro k hk
            refine ⟨(e3 k hk).1, ?_⟩
            rcases List.mem_map.mp (e3 k hk).2 with ⟨e, he, rfl⟩
            exact hK dir entries e hfs he
          have hcu : countUnseen K (nk1 ++ seen) + nk1.length ≤ countUnseen K seen :=
            countUnseen_append K nk1 seen e2 hnkK
          have hsub : (processEntries ihid fol md dir depth entries seen).pushes.map Prod.snd
              ⊆ nk1 := fun k hk => e5 k (List.mem_append_right _ hk)
          have hpnd : ((processEntries ihid fol md dir depth entries seen).pushes.map
              Prod.snd).Nodup := e4.of_append_right
          have hplen : (processEntries ihid fol md dir depth entries seen).pushes.length ≤
              nk1.length := by
            have := (List.subperm_of_subset hpnd hsub).length_le
            simpa using this
          have hm2 : countUnseen K (processEntries ihid fol md dir depth entries seen).seen +
              (((processEntries ihid fol md dir depth entries seen).pushes.map
                (fun pk => (pk.1, depth + 1))).reverse ++ rest).length < fuel := by
            rw [e1]
            simp only [List.length_append, List.length_reverse, List.length_map]
            omega
          obtain ⟨ys2, seenF, hrec, nk2, f1, f2, f3, f4, f5⟩ :=
            ihf fuel (Nat.lt_succ_self _)
              (((processEntries ihid fol md dir depth entries seen).pushes.map
                (fun pk => (pk.1, depth + 1))).reverse ++ rest)
              (processEntries ihid fol md dir depth entries seen).seen hm2
          have heq : discoverLoop ihid fol md fs (fuel + 1) ((dir, depth) :: rest) seen =
              some ((processEntries ihid fol md dir depth entries seen).yields ++ ys2,
                seenF) := by
            simp only [discoverLoop]
            rw [if_neg hh, hfs]
            simp only [hrec]
          refine ⟨(processEntries ihid fol md dir depth entries seen).yields ++ ys2, seenF,
            heq, nk2 ++ nk1, ?_, ?_, ?_, ?_, ?_⟩
          · rw [f1, e1, List.append_assoc]
          · rw [List.nodup_append]
            refine ⟨f2, e2, ?_⟩
            intro a ha hb
            have : a ∉ (processEntries ihid fol md dir depth entries seen).seen := f3 a ha
            rw [e1] at this
            exact this (List.mem_append_left _ hb)
          · intro k hk
            rcases List.mem_append.mp hk with h | h
            · have : k ∉ (processEntries ihid fol md dir depth entries seen).seen := f3 k h
              rw [e1] at this
              exact fun hc => this (List.mem_append_right _ hc)
            · exact (hnkK k h).1
          · rw [List.map_append]
            rw [List.nodup_append]
            refine ⟨e4.of_append_left, f4, ?_⟩
            intro a ha hb
            have haseen : a ∈ (processEntries ihid fol md dir depth entries seen).seen := by
              rw [e1]
              exact List.mem_append_left _ (e5 a (List.mem_append_left _ ha))
            exact (f3 a (f5 a hb)) haseen
          · intro k hk
            rw [List.map_append] at hk
            rcases List.mem_append.mp hk with h | h
            · exact List.mem_append_right _ (e5 k (List.mem_append_left _ h))
            · exact List.mem_append_left _ (f5 k h)

/-- `childKeys` distributes over append. -/
theorem childKeys_append (a b : List YieldItem) :
    childKeys (a ++ b) = childKeys a ++ childKeys b := by
  simp [childKeys, List.filterMap_append]

/-- The child keys of a block of child yields are exactly their key
components. -/
theorem childKeys_map_child (l : List (List String × Key)) :
    childKeys (l.map (fun pk => YieldItem.child pk.1 pk.2)) = l.map Prod.snd := by
  induction l with
  | nil => rfl
  | cons pk t iht => simp [childKeys, List.filterMap_cons] at *; exact iht

/-- Root-file yields contribute no child keys. -/
theorem childKeys_rootFile_cons (p : List String) (ys : List YieldItem) :
    childKeys (YieldItem.rootFile p :: ys) = childKeys ys := by
  simp [childKeys, List.filterMap_cons]

/-- The whole-run invariant of `discover_files`: with fuel `|K| + 2`
every root's loop completes, the shared seen-set grows by fresh
pairwise-distinct blocks, and the traversal-child yields of the whole
run carry pairwise-distinct keys. -/
theorem discover_files_spec (ihid fol : Bool) (md : Option Nat)
    (fs : List String → Option (List Entry)) (K : List Key)
    (hK : ∀ dir entries e, fs dir = some entries → e ∈ entries → childKey fol dir e ∈ K) :
    ∀ (roots : List Root) (seen : List Key),
      ∃ ys seenF,
        discover_files ihid fol md fs (K.length + 2) roots seen = some (ys, seenF) ∧
        ∃ newKeys : List Key, seenF = newKeys ++ seen ∧ newKeys.Nodup ∧
          (∀ k ∈ newKeys, k ∉ seen) ∧
          (childKeys ys).Nodup ∧ (∀ k ∈ childKeys ys, k ∈ newKeys) := by
  intro roots
  induction roots with
  | nil =>
    intro seen
    exact ⟨[], seen, rfl, [], rfl, List.nodup_nil, by simp, by simp [childKeys],
      by simp [childKeys]⟩
  | cons r rs ihr =>
    intro seen
    by_cases hrf : r.isFile = true
    · obtain ⟨ys, seenF, hres, nk, g1, g2, g3, g4, g5⟩ := ihr seen
      have heq : discover_files ihid fol md fs (K.length + 2) (r :: rs) seen =
          some (YieldItem.rootFile r.path :: ys, seenF) := by
        simp only [discover_files]
        rw [if_pos hrf]
        simp only [hres]
      exact ⟨YieldItem.rootFile r.path :: ys, seenF, heq, nk, g1, g2, g3,
        by rw [childKeys_rootFile_cons]; exact g4,
        by rw [childKeys_rootFile_cons]; exact g5⟩
    · cases hrp : r.present with
      | false =>
        obtain ⟨ys, seenF, hres, nk, g1, g2, g3, g4, g5⟩ := ihr seen
        have heq : discover_files ihid fol md fs (K.length + 2) (r :: rs) seen =
            discover_files ihid fol md fs (K.length + 2) rs seen := by
          simp only [discover_files]
          rw [if_neg hrf, if_pos (by simp [hrp])]
        rw [heq]
        exact ⟨ys, seenF, hres, nk, g1, g2, g3, g4, g5⟩
      | true =>
        obtain ⟨ys1, seen2, hloop, nk1, e1, e2, e3, e4, e5⟩ :=
          discoverLoop_spec ihid fol md fs K hK (K.length + 2) [(r.path, 0)] seen
            (by have := countUnseen_le K seen; simp only [List.length_cons,
              List.length_nil]; omega)
        obtain ⟨ys2, seenF, hres2, nk2, g1, g2, g3, g4, g5⟩ := ihr seen2
        have heq : discover_files ihid fol md fs (K.length + 2) (r :: rs) seen =
            some (ys1.map (fun pk => YieldItem.child pk.1 pk.2) ++ ys2, seenF) := by
          simp only [discover_files]
          rw [if_neg hrf, if_neg (by simp [hrp])]
          simp only [hloop, hres2]
        refine ⟨ys1.map (fun pk => YieldItem.child pk.1 pk.2) ++ ys2, seenF, heq,
          nk2 ++ nk1, ?_, ?_, ?_, ?_, ?_⟩
        · rw [g1, e1, List.append_assoc]
        · rw [List.nodup_append]
          refine ⟨g2, e2, ?_⟩
          intro a ha hb
          have : a ∉ seen2 := g3 a ha
          rw [e1] at this
          exact this (List.mem_append_left _ hb)
        · intro k hk
          rcases List.mem_append.mp hk with h | h
          · have : k ∉ seen2 := g3 k h
            rw [e1] at this
            exact fun hc => this (List.mem_append_right _ hc)
          · exact e3 k h
        · rw [childKeys_append, childKeys_map_child, List.nodup_append]
          refine ⟨e4, g4, ?_⟩
          intro a ha hb
          have haseen2 : a ∈ seen2 := by
            rw [e1]
            exact List.mem_append_left _ (e5 a ha)
          exact (g3 a (g5 a hb)) haseen2
        · intro k hk
          rw [childKeys_append, childKeys_map_child] at hk
          rcases List.mem_append.mp hk with h | h
          · exact List.mem_append_right _ (e5 k h)
          · exact List.mem_append_left _ (g5 k h)

/-- C4: (a) the loop-prevention contract at its enforcement point: a
key already in the seen-set is never yielded and never descended into
(pushed) by any later directory scan; (b) on any filesystem whose
child keys lie in a finite list `K` — which covers any finite
filesystem, including symlink cycles under `follow_symlinks = true`,
where a link back to a visited directory reproduces an already-seen
key — the run with fuel `|K| + 2` terminates with a result, and the
traversal-child yields have pairwise-distinct identity keys: each real
file reached through directory traversal is yielded at most once. -/
theorem claim_C4 :
    ∀ (includeHidden follow : Bool) (maxDepth : Option Nat)
      (fs : List String → Option (List Entry)) (K : List Key) (roots : List Root),
      (∀ dir entries e, fs dir = some entries → e ∈ entries → childKey follow dir e ∈ K) →
      (∀ (dir : List String) (depth : Nat) (entries : List Entry) (seen : List Key) (k : Key),
          k ∈ seen →
            k ∉ (processEntries includeHidden follow maxDepth dir depth
                entries seen).yields.map Prod.snd ∧
            k ∉ (processEntries includeHidden follow maxDepth dir depth
                entries seen).pushes.map Prod.snd) ∧
      ∃ ys seenF,
        discover_files includeHidden follow maxDepth fs (K.length + 2) roots [] =
          some (ys, seenF) ∧ (childKeys ys).Nodup := by
  intro ihid fol md fs K roots hK
  constructor
  · intro dir depth entries seen k hks
    obtain ⟨nk, e1, e2, e3, e4, e5⟩ := processEntries_spec ihid fol md dir depth entries seen
    constructor
    · intro hc
      exact (e3 k (e5 k (List.mem_append_left _ hc))).1 hks
    · intro hc
      exact (e3 k (e5 k (List.mem_append_right _ hc))).1 hks
  · obtain ⟨ys, seenF, hres, nk, _, _, _, hnd, _⟩ :=
      discover_files_spec ihid fol md fs K hK roots []
    exact ⟨ys, seenF, hres, hnd⟩

/-- The directory `a` (inode 2) inside the witness root. -/
def entryDirA : Entry :=
  { name := "a", statF := some (2, 1), statN := some (2, 1), resolved := some ["r", "a"],
    isFileF := false, isFileN := false, isDirF := true, isDirN := true }

/-- The regular file `f` (inode 3) inside directory `a`. -/
def entryFileF4 : Entry :=
  { name := "f", statF := some (3, 1), statN := some (3, 1), resolved := some ["r", "a", "f"],
    isFileF := true, isFileN := true, isDirF := false, isDirN := false }

/-- The symlink `l` inside `a` pointing back to `a` itself: followed,
it reports `a`'s inode (2) and is a directory; unfollowed it is inode 9
and neither file nor directory. -/
def entryLinkL : Entry :=
  { name := "l", statF := some (2, 1), statN := some (9, 1), resolved := some ["r", "a"],
    isFileF := false, isFileN := false, isDirF := true, isDirN := false }

/-- A filesystem with a symlink cycle: `r` contains `a`; `a` contains
the file `f` and the link `l` back to `a`, so the directory tree under
`follow_symlinks = true` is infinite (`r/a/l/l/l/…`). -/
def exFS4 (p : List String) : Option (List Entry) :=
  if p = ["r"] then some [entryDirA]
  else if p.take 2 = ["r", "a"] ∧ (p.drop 2).all (fun s => s = "l") then
    some [entryFileF4, entryLinkL]
  else none

/-- The key list covering every child key `exFS4` can produce under
`follow_symlinks = true`. -/
def exK4 : List Key := [Key.inode 2 1, Key.inode 3 1]

/-- The witness root directory `["r"]`. -/
def exRoot4 : Root := { path := ["r"], isFile := false, present := true }

/-- Witness for C4 on the concrete symlink-cycle filesystem with
`follow_symlinks = true`: the hypothesis holds, the run terminates, the
file is yielded exactly once, and the cycle entry is skipped as seen
(the concrete evaluation shows the full result). -/
theorem claim_C4_witness :
    (∀ dir entries e, exFS4 dir = some entries → e ∈ entries →
        childKey true dir e ∈ exK4) ∧
    ((∀ (dir : List String) (depth : Nat) (entries : List Entry) (seen : List Key) (k : Key),
        k ∈ seen →
          k ∉ (processEntries false true none dir depth entries seen).yields.map Prod.snd ∧
          k ∉ (processEntries false true none dir depth entries seen).pushes.map Prod.snd) ∧
      ∃ ys seenF,
        discover_files false true none exFS4 (exK4.length + 2) [exRoot4] [] =
          some (ys, seenF) ∧ (childKeys ys).Nodup) ∧
    discover_files false true none exFS4 4 [exRoot4] [] =
      some ([YieldItem.child ["r", "a", "f"] (Key.inode 3 1)],
        [Key.inode 3 1, Key.inode 2 1]) := by
  have hK : ∀ dir entries e, exFS4 dir = some entries → e ∈ entries →
      childKey true dir e ∈ exK4 := by
    intro dir entries e hfs he
    unfold exFS4 at hfs
    split_ifs at hfs with h1 h2
    · cases hfs
      rcases List.mem_singleton.mp he with rfl
      simp [childKey, entryStat, entryDirA, exK4]
    · cases hfs
      rcases List.mem_cons.mp he with rfl | he2
      · simp [childKey, entryStat, entryFileF4, exK4]
      · rcases List.mem_singleton.mp he2 with rfl
        simp [childKey, entryStat, entryLinkL, exK4]
  exact ⟨hK, claim_C4 false true none exFS4 exK4 [exRoot4] hK, by decide⟩

/-- The hidden test on a child path checks exactly the child's own
name. -/
theorem is_hidden_concat (dir : List String) (n : String) :
    is_hidden (dir ++ [n]) = startsWithDot n := by
  simp [is_hidden, List.getLastD_concat]

/-- Shape of a scan's outputs: every yield and push is `dir ++ [name]`
for some entry name; with hidden filtering on, that name is not
hidden; and a push only happens when the depth bound admits
`depth + 1`. -/
theorem processEntries_paths (ihid fol : Bool) (md : Option Nat) (dir : List String)
    (depth : Nat) :
    ∀ (entries : List Entry) (seen : List Key),
      (∀ pk ∈ (processEntries ihid fol md dir depth entries seen).yields,
        ∃ name, pk.1 = dir ++ [name] ∧ (ihid = false → startsWithDot name = false)) ∧
      (∀ pk ∈ (processEntries ihid fol md dir depth entries seen).pushes,
        (∃ name, pk.1 = dir ++ [name] ∧ (ihid = false → startsWithDot name = false)) ∧
          depthOK md depth = true) := by
  intro entries
  induction entries with
  | nil =>
    intro seen
    constructor <;> intro pk hpk <;> simp [processEntries] at hpk
  | cons e rest ihr =>
    intro seen
    have hname : ihid = false → ¬(¬(ihid = true) ∧ is_hidden (dir ++ [e.name]) = true) →
        startsWithDot e.name = false := by
      intro hfalse hcon
      rw [hfalse] at hcon
      simp only [Bool.false_eq_true, not_false_eq_true, true_and, is_hidden_concat] at hcon
      simpa using hcon
    by_cases hh : ¬(ihid = true) ∧ is_hidden (dir ++ [e.name]) = true
    · have heq : processEntries ihid fol md dir depth (e :: rest) seen =
          processEntries ihid fol md dir depth rest seen := by
        simp [processEntries, hh]
      rw [heq]
      exact ihr seen
    · by_cases hs : childKey fol dir e ∈ seen
      · have heq : processEntries ihid fol md dir depth (e :: rest) seen =
            processEntries ihid fol md dir depth rest seen := by
          simp [processEntries, hh, hs]
        rw [heq]
        exact ihr seen
      · by_cases hf : entryIsFile fol e = true
        · have heq : processEntries ihid fol md dir depth (e :: rest) seen =
              { processEntries ihid fol md dir depth rest (childKey fol dir e :: seen) with
                yields := (dir ++ [e.name], childKey fol dir e) ::
                  (processEntries ihid fol md dir depth rest
                    (childKey fol dir e :: seen)).yields } := by
            simp only [processEntries]
            rw [if_neg hh, if_neg hs, if_pos hf]
          rw [heq]
          obtain ⟨ihy, ihp⟩ := ihr (childKey fol dir e :: seen)
          constructor
          · intro pk hpk
            rcases List.mem_cons.mp hpk with rfl | hpk2
            · exact ⟨e.name, rfl, fun hfalse => hname hfalse hh⟩
            · exact ihy pk hpk2
          · intro pk hpk
            exact ihp pk hpk
        · by_cases hd : entryIsDir fol e = true
          · by_cases hdep : depthOK md depth = true
            · have heq : processEntries ihid fol md dir depth (e :: rest) seen =
                  { processEntries ihid fol md dir depth rest (childKey fol dir e :: seen) with
                    pushes := (dir ++ [e.name], childKey fol dir e) ::
                      (processEntries ihid fol md dir depth rest
                        (childKey fol dir e :: seen)).pushes } := by
                simp only [processEntries]
                rw [if_neg hh, if_neg hs, if_neg hf, if_pos hd, if_pos hdep]
              rw [heq]
              obtain ⟨ihy, ihp⟩ := ihr (childKey fol dir e :: seen)
              constructor
              · intro pk hpk
                exact ihy pk hpk
              · intro pk hpk
                rcases List.mem_cons.mp hpk with rfl | hpk2
                · exact ⟨⟨e.name, rfl, fun hfalse => hname hfalse hh⟩, hdep⟩
                · exact ihp pk hpk2
            · have heq : processEntries ihid fol md dir depth (e :: rest) seen =
                  processEntries ihid fol md dir depth rest (childKey fol dir e :: seen) := by
                simp only [processEntries]
                rw [if_neg hh, if_neg hs, if_neg hf, if_pos hd, if_neg hdep]
              rw [heq]
              exact ihr (childKey fol dir e :: seen)
          · have heq : processEntries ihid fol md dir depth (e :: rest) seen =
                processEntries ihid fol md dir depth rest (childKey fol dir e :: seen) := by
              simp only [processEntries]
              rw [if_neg hh, if_neg hs, if_neg hf, if_neg hd]
            rw [heq]
            exact ihr (childKey fol dir e :: seen)

/-- Loop invariant for hidden filtering: if every stack frame lies
under `root` through non-hidden components, every yield of the loop
does too (with a non-empty suffix), and the root's own name is not
hidden. -/
theorem discoverLoop_hidden (fol : Bool) (md : Option Nat)
    (fs : List String → Option (List Entry)) (root : List String) :
    ∀ (fuel : Nat) (stack : List (List String × Nat)) (seen : List Key)
      (ys : List (List String × Key)) (seenF : List Key),
      (∀ fr ∈ stack, ∃ suffix : List String, fr.1 = root ++ suffix ∧
        (∀ n ∈ suffix, startsWithDot n = false) ∧
        (suffix = [] ∨ is_hidden root = false)) →
      discoverLoop false fol md fs fuel stack seen = some (ys, seenF) →
      ∀ pk ∈ ys, ∃ suffix : List String, pk.1 = root ++ suffix ∧ suffix ≠ [] ∧
        (∀ n ∈ suffix, startsWithDot n = false) ∧ is_hidden root = false := by
  intro fuel
  induction fuel with
  | zero =>
    intro stack seen ys seenF hstack hres
    match stack, hres with
    | [], hres =>
      cases hres
      intro pk hpk
      cases hpk
  | succ fuel ihf =>
    intro stack seen ys seenF hstack hres
    match stack, hres with
    | [], hres =>
      cases hres
      intro pk hpk
      cases hpk
    | (dir, depth) :: rest, hres =>
      by_cases hh : ¬(false = true) ∧ is_hidden dir = true
      · rw [show discoverLoop false fol md fs (fuel + 1) ((dir, depth) :: rest) seen =
            discoverLoop false fol md fs fuel rest seen from by
          simp only [discoverLoop]; rw [if_pos hh]] at hres
        exact ihf rest seen ys seenF (fun fr hfr => hstack fr (List.mem_cons_of_mem _ hfr))
          hres
      · obtain ⟨suf, hsuf1, hsuf2, hsuf3⟩ := hstack (dir, depth) (List.mem_cons_self _ _)
        have hdir1 : dir = root ++ suf := hsuf1
        have hdirnh : is_hidden dir = false := by
          rcases Bool.eq_false_or_eq_true (is_hidden dir) with h | h
          · exact absurd ⟨by simp, h⟩ hh
          · exact h
        have hroot : is_hidden root = false := by
          rcases hsuf3 with h | h
          · subst h
            have hdr : dir = root := by simpa using hdir1
            rw [← hdr]
            exact hdirnh
          · exact h
        cases hfs : fs dir with
        | none =>
          rw [show discoverLoop false fol md fs (fuel + 1) ((dir, depth) :: rest) seen =
              discoverLoop false fol md fs fuel rest seen from by
            simp only [discoverLoop]; rw [if_neg hh, hfs]] at hres
          exact ihf rest seen ys seenF (fun fr hfr => hstack fr (List.mem_cons_of_mem _ hfr))
            hres
        | some entries =>
          obtain ⟨hy, hp⟩ := processEntries_paths false fol md dir depth entries seen
          cases hrec : discoverLoop false fol md fs fuel
              (((processEntries false fol md dir depth entries seen).pushes.map
                (fun pk => (pk.1, depth + 1))).reverse ++ rest)
              (processEntries false fol md dir depth entries seen).seen with
          | none =>
            rw [show discoverLoop false fol md fs (fuel + 1) ((dir, depth) :: rest) seen =
                none from by
              simp only [discoverLoop]; rw [if_neg hh, hfs]; simp only [hrec]] at hres
            cases hres
          | some out2 =>
            rw [show discoverLoop false fol md fs (fuel + 1) ((dir, depth) :: rest) seen =
                some ((processEntries false fol md dir depth entries seen).yields ++ out2.1,
                  out2.2) from by
              simp only [discoverLoop]; rw [if_neg hh, hfs]; simp only [hrec]] at hres
            cases hres
            have hstack2 : ∀ fr ∈ ((processEntries false fol md dir depth entries
                seen).pushes.map (fun pk => (pk.1, depth + 1))).reverse ++ rest,
                ∃ suffix : List String, fr.1 = root ++ suffix ∧
                  (∀ n ∈ suffix, startsWithDot n = false) ∧
                  (suffix = [] ∨ is_hidden root = false) := by
              intro fr hfr
              rcases List.mem_append.mp hfr with hfr2 | hfr2
              · rw [List.mem_reverse] at hfr2
                rcases List.mem_map.mp hfr2 with ⟨pk, hpk, rfl⟩
                obtain ⟨⟨name, hn1, hn2⟩, _⟩ := hp pk hpk
                refine ⟨suf ++ [name], ?_, ?_, Or.inr hroot⟩
                · show pk.1 = root ++ (suf ++ [name])
                  rw [hn1, hdir1, List.append_assoc]
                · intro n hn
                  rcases List.mem_append.mp hn with h | h
                  · exact hsuf2 n h
                  · rcases List.mem_singleton.mp h with rfl
                    exact hn2 rfl
              · exact hstack fr (List.mem_cons_of_mem _ hfr2)
            intro pk hpk
            rcases List.mem_append.mp hpk with hpk2 | hpk2
            · obtain ⟨name, hn1, hn2⟩ := hy pk hpk2
              refine ⟨suf ++ [name], ?_, by simp, ?_, hroot⟩
              · rw [hn1, hdir1, List.append_assoc]
              · intro n hn
                rcases List.mem_append.mp hn with h | h
                · exact hsuf2 n h
                · rcases List.mem_singleton.mp h with rfl
                  exact hn2 rfl
            · exact ihf _ _ out2.1 out2.2 hstack2 hrec pk hpk2

/-- A visible file `f` (inode 7) inside the counterexample root. -/
def exEntryF5 : Entry :=
  { name := "f", statF := some (7, 1), statN := some (7, 1), resolved := some [".h", "d", "f"],
    isFileF := true, isFileN := true, isDirF := false, isDirN := false }

/-- A filesystem whose only directory is the root `[".h", "d"]` — a
visible directory that lives under a hidden parent. -/
def exFS5 : List String → Option (List Entry) :=
  fun p => if p = [".h", "d"] then some [exEntryF5] else none

/-- The root `[".h", "d"]`: an existing directory whose own name `d` is
not hidden, but whose parent component `.h` is. -/
def exRoot5 : Root := { path := [".h", "d"], isFile := false, present := true }

/-- C5 counterexample: with `include_hidden = false`, a root directory
under a hidden ancestor yields the path `[".h", "d", "f"]`, which has a
component starting with the hidden marker and is not a root-file yield
— `is_hidden` only ever inspects the final name component, never the
ancestors of a root. -/
theorem claim_C5_counterexample :
    discover_files false false none exFS5 3 [exRoot5] [] =
      some ([YieldItem.child [".h", "d", "f"] (Key.inode 7 1)], [Key.inode 7 1]) ∧
    startsWithDot ".h" = true ∧
    (∀ r ∈ [exRoot5], r.isFile = false) := by
  decide

/-- C5 amended: with `include_hidden = false`, every yield is either a
root that is itself a regular file (yielded directly, with no hidden or
dedup checks) or a traversal child whose path extends some root's path
by a non-empty suffix of non-hidden components, the root's own final
name also being non-hidden — components *above* each root are never
inspected, so a hidden ancestor of a root can still appear in a yielded
path. -/
theorem claim_C5 :
    ∀ (fol : Bool) (md : Option Nat) (fs : List String → Option (List Entry)) (fuel : Nat)
      (roots : List Root) (seen : List Key) (ys : List YieldItem) (seenF : List Key),
      discover_files false fol md fs fuel roots seen = some (ys, seenF) →
      ∀ item ∈ ys,
        (∃ r ∈ roots, r.isFile = true ∧ item = YieldItem.rootFile r.path) ∨
        (∃ (p : List String) (k : Key) (r : Root) (suffix : List String),
          item = YieldItem.child p k ∧ r ∈ roots ∧ r.isFile = false ∧
          p = r.path ++ suffix ∧ suffix ≠ [] ∧
          (∀ n ∈ suffix, startsWithDot n = false) ∧ is_hidden r.path = false) := by
  intro fol md fs fuel roots
  induction roots with
  | nil =>
    intro seen ys seenF hres item hitem
    cases hres
    cases hitem
  | cons r rs ihr =>
    intro seen ys seenF hres item hitem
    by_cases hrf : r.isFile = true
    · rw [show discover_files false fol md fs fuel (r :: rs) seen =
          (match discover_files false fol md fs fuel rs seen with
            | some (ys2, sF) => some (YieldItem.rootFile r.path :: ys2, sF)
            | none => none) from by
        simp only [discover_files]; rw [if_pos hrf]] at hres
      cases hrec : discover_files false fol md fs fuel rs seen with
      | none =>
        rw [hrec] at hres
        cases hres
      | some out2 =>
        obtain ⟨ys2, sF⟩ := out2
        rw [hrec] at hres
        cases hres
        rcases List.mem_cons.mp hitem with rfl | hitem2
        · exact Or.inl ⟨r, List.mem_cons_self _ _, hrf, rfl⟩
        · rcases ihr seen ys2 _ hrec item hitem2 with ⟨r2, hr2, hf2, he2⟩ |
            ⟨p, k, r2, suffix, h1, h2, h3, h4, h5, h6, h7⟩
          · exact Or.inl ⟨r2, List.mem_cons_of_mem _ hr2, hf2, he2⟩
          · exact Or.inr ⟨p, k, r2, suffix, h1, List.mem_cons_of_mem _ h2, h3, h4, h5, h6, h7⟩
    · cases hrp : r.present with
      | false =>
        rw [show discover_files false fol md fs fuel (r :: rs) seen =
            discover_files false fol md fs fuel rs seen from by
          simp only [discover_files]; rw [if_neg hrf, if_pos (by simp [hrp])]] at hres
        rcases ihr seen ys seenF hres item hitem with ⟨r2, hr2, hf2, he2⟩ |
            ⟨p, k, r2, suffix, h1, h2, h3, h4, h5, h6, h7⟩
        · exact Or.inl ⟨r2, List.mem_cons_of_mem _ hr2, hf2, he2⟩
        · exact Or.inr ⟨p, k, r2, suffix, h1, List.mem_cons_of_mem _ h2, h3, h4, h5, h6, h7⟩
      | true =>
        cases hloop : discoverLoop false fol md fs fuel [(r.path, 0)] seen with
        | none =>
          rw [show discover_files false fol md fs fuel (r :: rs) seen = none from by
            simp only [discover_files]
            rw [if_neg hrf, if_neg (by simp [hrp])]
            simp only [hloop]] at hres
          cases hres
        | some out1 =>
          obtain ⟨ys1, seen2⟩ := out1
          cases hrec : discover_files false fol md fs fuel rs seen2 with
          | none =>
            rw [show discover_files false fol md fs fuel (r :: rs) seen = none from by
              simp only [discover_files]
              rw [if_neg hrf, if_neg (by simp [hrp])]
              simp only [hloop, hrec]] at hres
            cases hres
          | some out2 =>
            obtain ⟨ys2, sF⟩ := out2
            rw [show discover_files false fol md fs fuel (r :: rs) seen =
                some (ys1.map (fun pk => YieldItem.child pk.1 pk.2) ++ ys2, sF) from by
              simp only [discover_files]
              rw [if_neg hrf, if_neg (by simp [hrp])]
              simp only [hloop, hrec]] at hres
            cases hres
            rcases List.mem_append.mp hitem with hitem2 | hitem2
            · rcases List.mem_map.mp hitem2 with ⟨pk, hpk, rfl⟩
              obtain ⟨suffix, hs1, hs2, hs3, hs4⟩ :=
                discoverLoop_hidden fol md fs r.path fuel [(r.path, 0)] seen ys1 seen2
                  (by
                    intro fr hfr
                    rcases List.mem_singleton.mp hfr with rfl
                    exact ⟨[], by simp, by simp, Or.inl rfl⟩)
                  hloop pk hpk
              refine Or.inr ⟨pk.1, pk.2, r, suffix, rfl, List.mem_cons_self _ _,
                by simpa using hrf, hs1, hs2, hs3, hs4⟩
            · rcases ihr seen2 ys2 _ hrec item hitem2 with ⟨r2, hr2, hf2, he2⟩ |
                  ⟨p, k, r2, suffix, h1, h2, h3, h4, h5, h6, h7⟩
              · exact Or.inl ⟨r2, List.mem_cons_of_mem _ hr2, hf2, he2⟩
              · exact Or.inr ⟨p, k, r2, suffix, h1, List.mem_cons_of_mem _ h2, h3, h4, h5,
                  h6, h7⟩

/-- A visible file `g` (inode 8) for the C5 witness. -/
def exEntryG5 : Entry :=
  { name := "g", statF := some (8, 1), statN := some (8, 1), resolved := some ["r", "g"],
    isFileF := true, isFileN := true, isDirF := false, isDirN := false }

/-- A one-directory filesystem: root `["r"]` contains the file `g`. -/
def exFS5b : List String → Option (List Entry) :=
  fun p => if p = ["r"] then some [exEntryG5] else none

/-- The witness root `["r"]`. -/
def exRoot5b : Root := { path := ["r"], isFile := false, present := true }

/-- Witness for C5 on the concrete one-file filesystem. -/
theorem claim_C5_witness :
    discover_files false false none exFS5b 3 [exRoot5b] [] =
      some ([YieldItem.child ["r", "g"] (Key.inode 8 1)], [Key.inode 8 1]) ∧
    ((∃ r ∈ [exRoot5b], r.isFile = true ∧
        YieldItem.child ["r", "g"] (Key.inode 8 1) = YieldItem.rootFile r.path) ∨
      (∃ (p : List String) (k : Key) (r : Root) (suffix : List String),
        YieldItem.child ["r", "g"] (Key.inode 8 1) = YieldItem.child p k ∧ r ∈ [exRoot5b] ∧
        r.isFile = false ∧ p = r.path ++ suffix ∧ suffix ≠ [] ∧
        (∀ n ∈ suffix, startsWithDot n = false) ∧ is_hidden r.path = false)) :=
  ⟨by decide,
    claim_C5 false none exFS5b 3 [exRoot5b] [] [YieldItem.child ["r", "g"] (Key.inode 8 1)]
      [Key.inode 8 1] (by decide) (YieldItem.child ["r", "g"] (Key.inode 8 1)) (by decide)⟩

/-- Loop invariant for the depth bound: if every stack frame's depth is
at most `d` and its path length is `rootLen` plus its depth, every
yield's path length lies between `rootLen + 1` (a root's direct child,
depth 0) and `rootLen + 1 + d` (a file at depth exactly `d`). -/
theorem discoverLoop_depth (ihid fol : Bool) (fs : List String → Option (List Entry))
    (d : Nat) (rootLen : Nat) :
    ∀ (fuel : Nat) (stack : List (List String × Nat)) (seen : List Key)
      (ys : List (List String × Key)) (seenF : List Key),
      (∀ fr ∈ stack, fr.2 ≤ d ∧ fr.1.length = rootLen + fr.2) →
      discoverLoop ihid fol (some d) fs fuel stack seen = some (ys, seenF) →
      ∀ pk ∈ ys, rootLen + 1 ≤ pk.1.length ∧ pk.1.length ≤ rootLen + 1 + d := by
  intro fuel
  induction fuel with
  | zero =>
    intro stack seen ys seenF hstack hres
    match stack, hres with
    | [], hres =>
      cases hres
      intro pk hpk
      cases hpk
  | succ fuel ihf =>
    intro stack seen ys seenF hstack hres
    match stack, hres with
    | [], hres =>
      cases hres
      intro pk hpk
      cases hpk
    | (dir, depth) :: rest, hres =>
      obtain ⟨hdep, hlen⟩ := hstack (dir, depth) (List.mem_cons_self _ _)
      by_cases hh : ¬(ihid = true) ∧ is_hidden dir = true
      · rw [show discoverLoop ihid fol (some d) fs (fuel + 1) ((dir, depth) :: rest) seen =
            discoverLoop ihid fol (some d) fs fuel rest seen from by
          simp only [discoverLoop]; rw [if_pos hh]] at hres
        exact ihf rest seen ys seenF (fun fr hfr => hstack fr (List.mem_cons_of_mem _ hfr))
          hres
      · cases hfs : fs dir with
        | none =>
          rw [show discoverLoop ihid fol (some d) fs (fuel + 1) ((dir, depth) :: rest) seen =
              discoverLoop ihid fol (some d) fs fuel rest seen from by
            simp only [discoverLoop]; rw [if_neg hh, hfs]] at hres
          exact ihf rest seen ys seenF (fun fr hfr => hstack fr (List.mem_cons_of_mem _ hfr))
            hres
        | some entries =>
          obtain ⟨hy, hp⟩ := processEntries_paths ihid fol (some d) dir depth entries seen
          cases hrec : discoverLoop ihid fol (some d) fs fuel
              (((processEntries ihid fol (some d) dir depth entries seen).pushes.map
                (fun pk => (pk.1, depth + 1))).reverse ++ rest)
              (processEntries ihid fol (some d) dir depth entries seen).seen with
          | none =>
            rw [show discoverLoop ihid fol (some d) fs (fuel + 1) ((dir, depth) :: rest)
                seen = none from by
              simp only [discoverLoop]; rw [if_neg hh, hfs]; simp only [hrec]] at hres
            cases hres
          | some out2 =>
            rw [show discoverLoop ihid fol (some d) fs (fuel + 1) ((dir, depth) :: rest)
                seen = some ((processEntries ihid fol (some d) dir depth entries
                  seen).yields ++ out2.1, out2.2) from by
              simp only [discoverLoop]; rw [if_neg hh, hfs]; simp only [hrec]] at hres
            cases hres
            have hstack2 : ∀ fr ∈ ((processEntries ihid fol (some d) dir depth entries
                seen).pushes.map (fun pk => (pk.1, depth + 1))).reverse ++ rest,
                fr.2 ≤ d ∧ fr.1.length = rootLen + fr.2 := by
              intro fr hfr
              rcases List.mem_append.mp hfr with hfr2 | hfr2
              · rw [List.mem_reverse] at hfr2
                rcases List.mem_map.mp hfr2 with ⟨pk, hpk, rfl⟩
                obtain ⟨⟨name, hn1, _⟩, hdok⟩ := hp pk hpk
                have hdok2 : depth + 1 ≤ d := by
                  simpa [depthOK] using hdok
                refine ⟨hdok2, ?_⟩
                show pk.1.length = rootLen + (depth + 1)
                rw [hn1]
                simp only [List.length_append, List.length_cons, List.length_nil, hlen]
                omega
              · exact hstack fr (List.mem_cons_of_mem _ hfr2)
            intro pk hpk
            rcases List.mem_append.mp hpk with hpk2 | hpk2
            · obtain ⟨name, hn1, _⟩ := hy pk hpk2
              rw [hn1]
              simp only [List.length_append, List.length_cons, List.length_nil, hlen]
              omega
            · exact ihf _ _ out2.1 out2.2 hstack2 hrec pk hpk2

/-- The depth-pruning equation of source lines 215–219: a fresh,
non-hidden directory child beyond the depth bound is recorded as seen
but neither yielded nor pushed, and the scan of the remaining entries
continues normally — pruning produces no error of any kind. -/
theorem processEntries_prune (ihid fol : Bool) (d : Nat) (dir : List String) (depth : Nat)
    (e : Entry) (rest : List Entry) (seen : List Key)
    (hh : ¬(¬(ihid = true) ∧ is_hidden (dir ++ [e.name]) = true))
    (hs : childKey fol dir e ∉ seen)
    (hf : entryIsFile fol e = false)
    (hd : entryIsDir fol e = true)
    (hdep : depthOK (some d) depth = false) :
    processEntries ihid fol (some d) dir depth (e :: rest) seen =
      processEntries ihid fol (some d) dir depth rest (childKey fol dir e :: seen) := by
  simp only [processEntries]
  rw [if_neg hh, if_neg hs, if_neg (by simp [hf]), if_pos hd, if_neg (by simp [hdep])]

/-- The directory at `i` levels below the chain root: `r/a/a/…/a` with
`i` copies of `a`. -/
def chainPath (i : Nat) : List String := "r" :: List.replicate i "a"

/-- The subdirectory entry (`a`, inode `i + 2`) inside the chain
directory at level `i`. -/
def chainDirEntry (i : Nat) : Entry :=
  { name := "a", statF := some (i + 2, 1), statN := some (i + 2, 1),
    resolved := some (chainPath (i + 1)),
    isFileF := false, isFileN := false, isDirF := true, isDirN := true }

/-- The file entry (`f`, inode 1 on device 2, so that its key can never
collide with a chain directory's key on device 1) at the bottom of the
chain. -/
def chainFileEntry : Entry :=
  { name := "f", statF := some (1, 2), statN := some (1, 2), resolved := none,
    isFileF := true, isFileN := true, isDirF := false, isDirN := false }

/-- A pure directory chain of depth `d`: level `i < d` holds one
subdirectory; level `d` holds one file. -/
def chainFS (d : Nat) : List String → Option (List Entry)
  | [] => none
  | r :: rest =>
    if r = "r" ∧ rest.all (fun s => s = "a") then
      if rest.length < d then some [chainDirEntry rest.length]
      else if rest.length = d then some [chainFileEntry]
      else none
    else none

/-- The chain root. -/
def chainRoot : Root := { path := chainPath 0, isFile := false, present := true }

/-- Extending the chain path by one level. -/
theorem chainPath_succ (i : Nat) : chainPath (i + 1) = chainPath i ++ ["a"] := by
  simp [chainPath, List.replicate_succ']

/-- No chain directory is hidden. -/
theorem chainPath_not_hidden (i : Nat) : is_hidden (chainPath i) = false := by
  cases i with
  | zero => decide
  | succ j =>
    rw [chainPath_succ, is_hidden_concat]
    decide

/-- Evaluating the chain filesystem at a chain path. -/
theorem chainFS_eval (d i : Nat) :
    chainFS d (chainPath i) =
      (if i < d then some [chainDirEntry i]
       else if i = d then some [chainFileEntry] else none) := by
  show chainFS d ("r" :: List.replicate i "a") = _
  have hall : (List.replicate i "a").all (fun s => s = "a") = true := by
    simp only [List.all_eq_true]
    intro s hs
    simpa using List.eq_of_mem_replicate hs
  rw [chainFS]
  rw [if_pos ⟨rfl, hall⟩, List.length_replicate]

/-- Scanning the chain directory at level `i < d`: the subdirectory is
pushed, nothing yielded. -/
theorem chain_scan_dir (d i : Nat) (seen : List Key)
    (hs : Key.inode (i + 2) 1 ∉ seen) (hlt : i + 1 ≤ d) :
    processEntries false false (some d) (chainPath i) i [chainDirEntry i] seen =
      { yields := [], pushes := [(chainPath i ++ ["a"], Key.inode (i + 2) 1)],
        seen := [Key.inode (i + 2) 1] ++ seen } := by
  have hkey : childKey false (chainPath i) (chainDirEntry i) = Key.inode (i + 2) 1 := by
    simp [childKey, entryStat, chainDirEntry]
  simp only [processEntries]
  rw [if_neg (by
    rw [show (chainDirEntry i).name = "a" from rfl, is_hidden_concat]
    decide)]
  rw [hkey]
  rw [if_neg hs, if_neg (by simp [entryIsFile, chainDirEntry]),
    if_pos (by simp [entryIsDir, chainDirEntry]),
    if_pos (by simp only [depthOK, decide_eq_true_eq]; omega)]
  simp [processEntries, chainDirEntry]

/-- Scanning the chain directory at level `d`: the file is yielded. -/
theorem chain_scan_file (d : Nat) (seen : List Key)
    (hs : Key.inode 1 2 ∉ seen) :
    processEntries false false (some d) (chainPath d) d [chainFileEntry] seen =
      { yields := [(chainPath d ++ ["f"], Key.inode 1 2)], pushes := [],
        seen := [Key.inode 1 2] ++ seen } := by
  have hkey : childKey false (chainPath d) chainFileEntry = Key.inode 1 2 := by
    simp [childKey, entryStat, chainFileEntry]
  simp only [processEntries]
  rw [if_neg (by
    rw [show chainFileEntry.name = "f" from rfl, is_hidden_concat]
    decide)]
  rw [hkey]
  rw [if_neg hs, if_pos (by simp [entryIsFile, chainFileEntry])]
  simp [processEntries, chainFileEntry]

/-- The loop on an empty stack returns immediately, for any fuel. -/
theorem discoverLoop_nil (ihid fol : Bool) (md : Option Nat)
    (fs : List String → Option (List Entry)) (fuel : Nat) (seen : List Key) :
    discoverLoop ihid fol md fs fuel [] seen = some ([], seen) := by
  cases fuel <;> rfl

/-- Descending the chain: starting at level `i` with `n = d - i` levels
to go and a seen-set fresh for the remaining keys, the loop yields
exactly the bottom file. -/
theorem chain_descend (d : Nat) :
    ∀ (n i : Nat), i + n = d → ∀ seen : List Key,
      (∀ j, i ≤ j → j < d → Key.inode (j + 2) 1 ∉ seen) →
      Key.inode 1 2 ∉ seen →
      ∃ seenF, discoverLoop false false (some d) (chainFS d) (n + 2)
          [(chainPath i, i)] seen =
        some ([(chainPath d ++ ["f"], Key.inode 1 2)], seenF) := by
  intro n
  induction n with
  | zero =>
    intro i hi seen hseen hfile
    have hid : i = d := by omega
    subst hid
    refine ⟨Key.inode 1 2 :: seen, ?_⟩
    have hfs : chainFS i (chainPath i) = some [chainFileEntry] := by
      rw [chainFS_eval]
      rw [if_neg (by omega), if_pos rfl]
    show discoverLoop false false (some i) (chainFS i) (1 + 1) [(chainPath i, i)] seen = _
    simp only [discoverLoop]
    rw [if_neg (by simp [chainPath_not_hidden]), hfs]
    simp only [chain_scan_file i seen hfile, List.map_nil, List.reverse_nil,
      List.nil_append, discoverLoop_nil, List.append_nil, List.singleton_append]
  | succ n ihn =>
    intro i hi seen hseen hfile
    have hlt : i + 1 ≤ d := by omega
    have hfs : chainFS d (chainPath i) = some [chainDirEntry i] := by
      rw [chainFS_eval]
      rw [if_pos (by omega)]
    obtain ⟨seenF, hrec⟩ := ihn (i + 1) (by omega) (Key.inode (i + 2) 1 :: seen)
      (by
        intro j hj1 hj2
        simp only [List.mem_cons]
        rintro (h | h)
        · injection h with h1 h2
          omega
        · exact hseen j (by omega) hj2 h)
      (by
        simp only [List.mem_cons]
        rintro (h | h)
        · injection h with h1 h2
          omega
        · exact hfile h)
    refine ⟨seenF, ?_⟩
    show discoverLoop false false (some d) (chainFS d) ((n + 2) + 1)
        [(chainPath i, i)] seen = _
    simp only [discoverLoop]
    rw [if_neg (by simp [chainPath_not_hidden]), hfs]
    simp only [chain_scan_dir d i seen (hseen i (by omega) (by omega)) hlt,
      List.map_cons, List.map_nil, List.reverse_cons, List.reverse_nil,
      List.nil_append, List.append_nil]
    rw [← chainPath_succ]
    simp only [List.singleton_append, hrec, List.nil_append]

/-- Run-level depth bound: every traversal-child yield of a run with
`max_depth = d` lies between 1 and `1 + d` components below some
root. -/
theorem discover_files_depth (ihid fol : Bool) (fs : List String → Option (List Entry))
    (fuel d : Nat) :
    ∀ (roots : List Root) (seen : List Key) (ys : List YieldItem) (seenF : List Key),
      discover_files ihid fol (some d) fs fuel roots seen = some (ys, seenF) →
      ∀ p k, YieldItem.child p k ∈ ys →
        ∃ r ∈ roots, r.isFile = false ∧ r.path.length + 1 ≤ p.length ∧
          p.length ≤ r.path.length + 1 + d := by
  intro roots
  induction roots with
  | nil =>
    intro seen ys seenF hres p k hitem
    cases hres
    cases hitem
  | cons r rs ihr =>
    intro seen ys seenF hres p k hitem
    by_cases hrf : r.isFile = true
    · rw [show discover_files ihid fol (some d) fs fuel (r :: rs) seen =
          (match discover_files ihid fol (some d) fs fuel rs seen with
            | some (ys2, sF) => some (YieldItem.rootFile r.path :: ys2, sF)
            | none => none) from by
        simp only [discover_files]; rw [if_pos hrf]] at hres
      cases hrec : discover_files ihid fol (some d) fs fuel rs seen with
      | none =>
        rw [hrec] at hres
        cases hres
      | some out2 =>
        obtain ⟨ys2, sF⟩ := out2
        rw [hrec] at hres
        cases hres
        rcases List.mem_cons.mp hitem with h | hitem2
        · cases h
        · obtain ⟨r2, hr2, hrest⟩ := ihr seen ys2 _ hrec p k hitem2
          exact ⟨r2, List.mem_cons_of_mem _ hr2, hrest⟩
    · cases hrp : r.present with
      | false =>
        rw [show discover_files ihid fol (some d) fs fuel (r :: rs) seen =
            discover_files ihid fol (some d) fs fuel rs seen from by
          simp only [discover_files]; rw [if_neg hrf, if_pos (by simp [hrp])]] at hres
        obtain ⟨r2, hr2, hrest⟩ := ihr seen ys _ hres p k hitem
        exact ⟨r2, List.mem_cons_of_mem _ hr2, hrest⟩
      | true =>
        cases hloop : discoverLoop ihid fol (some d) fs fuel [(r.path, 0)] seen with
        | none =>
          rw [show discover_files ihid fol (some d) fs fuel (r :: rs) seen = none from by
            simp only [discover_files]
            rw [if_neg hrf, if_neg (by simp [hrp])]
            simp only [hloop]] at hres
          cases hres
        | some out1 =>
          obtain ⟨ys1, seen2⟩ := out1
          cases hrec : discover_files ihid fol (some d) fs fuel rs seen2 with
          | none =>
            rw [show discover_files ihid fol (some d) fs fuel (r :: rs) seen = none from by
              simp only [discover_files]
              rw [if_neg hrf, if_neg (by simp [hrp])]
              simp only [hloop, hrec]] at hres
            cases hres
          | some out2 =>
            obtain ⟨ys2, sF⟩ := out2
            rw [show discover_files ihid fol (some d) fs fuel (r :: rs) seen =
                some (ys1.map (fun pk => YieldItem.child pk.1 pk.2) ++ ys2, sF) from by
              simp only [discover_files]
              rw [if_neg hrf, if_neg (by simp [hrp])]
              simp only [hloop, hrec]] at hres
            cases hres
            rcases List.mem_append.mp hitem with hitem2 | hitem2
            · rcases List.mem_map.mp hitem2 with ⟨pk, hpk, hpk2⟩
              have hp : pk.1 = p := congrArg (fun item => match item with
                | YieldItem.child q _ => q
                | YieldItem.rootFile q => q) hpk2
              obtain ⟨hlow, hhigh⟩ :=
                discoverLoop_depth ihid fol fs d r.path.length fuel [(r.path, 0)] seen ys1
                  seen2 (by
                    intro fr hfr
                    rcases List.mem_singleton.mp hfr with rfl
                    exact ⟨Nat.zero_le _, by simp⟩)
                  hloop pk hpk
              rw [hp] at hlow hhigh
              exact ⟨r, List.mem_cons_self _ _, by simpa using hrf, hlow, hhigh⟩
            · obtain ⟨r2, hr2, hrest⟩ := ihr seen2 ys2 _ hrec p k hitem2
              exact ⟨r2, List.mem_cons_of_mem _ hr2, hrest⟩

/-- C6: (a) for every run with `max_depth = d`, every traversal-child
yield sits between 1 and `1 + d` path components below some root, i.e.
no file more than `d` directory levels below a root is yielded (a
root's direct children are at depth 0); (b) files at exactly depth `d`
are yielded when the chain of directories above them passes the other
filters: on the pure chain filesystem of depth `d` the bottom file is
yielded, for every `d`; (c) a directory child beyond the bound is
pruned without error: it is recorded as seen but not pushed or
yielded, and the scan simply continues. -/
theorem claim_C6 :
    (∀ (ihid fol : Bool) (fs : List String → Option (List Entry)) (fuel d : Nat)
      (roots : List Root) (seen : List Key) (ys : List YieldItem) (seenF : List Key),
      discover_files ihid fol (some d) fs fuel roots seen = some (ys, seenF) →
      ∀ p k, YieldItem.child p k ∈ ys →
        ∃ r ∈ roots, r.isFile = false ∧ r.path.length + 1 ≤ p.length ∧
          p.length ≤ r.path.length + 1 + d) ∧
    (∀ d : Nat, ∃ seenF,
      discover_files false false (some d) (chainFS d) (d + 2) [chainRoot] [] =
        some ([YieldItem.child (chainPath d ++ ["f"]) (Key.inode 1 2)], seenF)) ∧
    (∀ (ihid fol : Bool) (d : Nat) (dir : List String) (depth : Nat) (e : Entry)
      (rest : List Entry) (seen : List Key),
      ¬(¬(ihid = true) ∧ is_hidden (dir ++ [e.name]) = true) →
      childKey fol dir e ∉ seen →
      entryIsFile fol e = false →
      entryIsDir fol e = true →
      depthOK (some d) depth = false →
      processEntries ihid fol (some d) dir depth (e :: rest) seen =
        processEntries ihid fol (some d) dir depth rest (childKey fol dir e :: seen)) := by
  refine ⟨?_, ?_, ?_⟩
  · exact fun ihid fol fs fuel d => discover_files_depth ihid fol fs fuel d
  · intro d
    obtain ⟨sF, hloop⟩ := chain_descend d d 0 (by omega) [] (by simp) (by simp)
    refine ⟨sF, ?_⟩
    show discover_files false false (some d) (chainFS d) (d + 2) (chainRoot :: []) [] = _
    simp only [discover_files]
    rw [if_neg (by decide), if_neg (by decide)]
    rw [show chainRoot.path = chainPath 0 from rfl]
    simp only [hloop]
    rfl
  · exact fun ihid fol d dir depth e rest seen hh hs hf hd hdep =>
      processEntries_prune ihid fol d dir depth e rest seen hh hs hf hd hdep

/-- Witness for C6: the bound applied to a concrete one-file run with
`max_depth = 5`; the exact-depth chain instantiated at `d = 2`; and the
pruning equation applied to a concrete fresh directory child with
`max_depth = 0`. -/
theorem claim_C6_witness :
    (∃ r ∈ [exRoot5b], r.isFile = false ∧
      r.path.length + 1 ≤ (["r", "g"] : List String).length ∧
      (["r", "g"] : List String).length ≤ r.path.length + 1 + 5) ∧
    (∃ seenF, discover_files false false (some 2) (chainFS 2) (2 + 2) [chainRoot] [] =
      some ([YieldItem.child (chainPath 2 ++ ["f"]) (Key.inode 1 2)], seenF)) ∧
    processEntries false false (some 0) ["r"] 0 [entryDirA] [] =
      processEntries false false (some 0) ["r"] 0 [] [Key.inode 2 1] :=
  ⟨claim_C6.1 false false exFS5b 3 5 [exRoot5b] []
      [YieldItem.child ["r", "g"] (Key.inode 8 1)] [Key.inode 8 1] (by decide)
      ["r", "g"] (Key.inode 8 1) (by decide),
    claim_C6.2.1 2,
    claim_C6.2.2 false false 0 ["r"] 0 entryDirA [] [] (by decide) (by decide) (by decide)
      (by decide) (by decide)⟩

end CollectFiles
